import Mathlib

/-!
# Verification of the metadata-inventory-service core

A shallow embedding, in Lean 4, of the core operations of the
`metadata-inventory-service` repository (Python), together with theorems
settling the specification claims about it.

Embedded components (file references are to the repository source):

* `app/infrastructure/db/repository.py` — `MetadataRepository`
  (`find_by_url`, `upsert`, `mark_pending`, `mark_failed`), modelled per
  canonical URL as transformers of an `Option MRec` store state, with the
  MongoDB `update_one`/`upsert` conditional-write semantics made explicit
  and concurrency races passed in as oracle parameters.
* `app/infrastructure/crawler/http_client.py` — `fetch_url` outcome
  classification.
* `app/infrastructure/messaging/producer.py` — `enqueue`,
  `publish_with_retry`, `publish_to_dlq` over an optional producer handle.
* `app/infrastructure/messaging/consumer.py` — the per-message dispatch
  of `_consume_loop` (retry accounting, DLQ routing, offset commit).
* `app/domain/metadata_service.py` — `get_metadata`.
* `app/utils/url_normalizer.py` — `normalize_url`, including a model of
  the CPython 3.11 `urllib.parse` functions it calls.

Machine integers do not arise (Python integers are unbounded); timestamps
are modelled as abstract `Nat` instants supplied by the caller (`now`),
and store-assigned identifiers as `Nat`.
-/

set_option maxRecDepth 10000

/-! ## Domain model: record status and persisted record

From `app/domain/models.py` / `app/infrastructure/db/repository.py`:
a metadata document has `url` (the key; implicit here since the store is
modelled per canonical URL), `status` (`pending` / `completed` / `failed`),
an optional `error`, `created_at`, `updated_at`, and the collected payload
(headers, cookies, page_source, status_code), which the repository treats
as an opaque field map `data`. -/

/-- Record status, from the `status` field values used in the source. -/
inductive Status where
  | pending
  | completed
  | failed
deriving DecidableEq, Repr

/-- A persisted metadata document for one canonical URL.
`rid` models the Mongo `_id`; `fields` the payload dict passed to
`upsert` (headers, cookies, page_source, status_code — opaque here). -/
structure MRec where
  rid : Nat
  status : Status
  error : Option String
  createdAt : Nat
  updatedAt : Nat
  fields : List (String × String)
deriving DecidableEq, Repr

/-- `app/core/exceptions.py` — `DatabaseError(operation, reason)`
(the spec's `StoreFailure` with operation name and cause). -/
structure DatabaseError where
  operation : String
  reason : String
deriving DecidableEq, Repr

/-! ## Document store adapter (`app/infrastructure/db/repository.py`)

The store for a single canonical URL is `Option MRec` (the collection has
a unique index on `url`, so at most one record exists per URL).  Every
operation takes the pre-state and returns the result together with the
post-state.  Faults of the underlying driver are oracle parameters:
`pyFault = some msg` means the Mongo call raises `PyMongoError(msg)`;
`raceRec = some r` means a concurrent writer inserted record `r` between
our conditional write and its insert step, so the insert raises
`DuplicateKeyError` and the store holds `r`. -/

/-- `MetadataRepository.find_by_url` (repository.py lines 29-44):
plain lookup; a `PyMongoError` is re-raised as
`DatabaseError("find_by_url", cause)`. -/
def MetadataRepository.find_by_url (pyFault : Option String)
    (st : Option MRec) : Except DatabaseError (Option MRec) :=
  match pyFault with
  | some m => .error ⟨"find_by_url", m⟩
  | none => .ok st

/-- `MetadataRepository.upsert` (repository.py lines 46-92): one
`update_one({"url": url}, {"$set": data ∪ {url, status: completed,
updated_at: now}, "$setOnInsert": {created_at: now}}, upsert=True)`.
Returns `(document id, post-state)`.

* record exists → update in place, `created_at` untouched, id of the
  existing record;
* no record, no race → insert with `created_at = updated_at = now`,
  id `newId` (the `upserted_id`);
* no record but a concurrent insert won (`dupRace = true`) →
  `DuplicateKeyError` is caught and the code retries exactly once by
  reading the existing record (`retryRead` is what that read sees); if
  the read finds it, its id is returned, else
  `DatabaseError("upsert", "Duplicate key conflict for " ++ url)`;
* `PyMongoError` → `DatabaseError("upsert", cause)`. -/
def MetadataRepository.upsert (url : String) (data : List (String × String))
    (now newId : Nat) (pyFault : Option String) (dupRace : Bool)
    (retryRead : Option MRec)
    (st : Option MRec) : Except DatabaseError (Nat × Option MRec) :=
  match pyFault with
  | some m => .error ⟨"upsert", m⟩
  | none =>
    match st with
    | some r =>
        .ok (r.rid, some { r with
          status := .completed, updatedAt := now, fields := data })
    | none =>
      if dupRace then
        match retryRead with
        | some r => .ok (r.rid, retryRead)
        | none => .error ⟨"upsert", "Duplicate key conflict for " ++ url⟩
      else
        .ok (newId, some ⟨newId, .completed, none, now, now, data⟩)

/-- The state after a successful `upsert` when no race occurred (the
projection of `MetadataRepository.upsert` used by several theorems). -/
def upsertResultState (data : List (String × String)) (now newId : Nat)
    (st : Option MRec) : MRec :=
  match st with
  | some r => { r with status := .completed, updatedAt := now, fields := data }
  | none => ⟨newId, .completed, none, now, now, data⟩

/-- `MetadataRepository.mark_pending` (repository.py lines 94-139): one
conditional `update_one({"url": url, "status": {"$nin": ["completed",
"pending"]}}, {"$set": {url, status: pending, updated_at: now},
"$setOnInsert": {created_at: now}}, upsert=True)`; returns
`(was_created or was_modified, post-state)`.

* no record, no race → the filter matches nothing, Mongo inserts
  `{url, status: pending, created_at: now, updated_at: now}`; `true`;
* no record, concurrent insert won (`raceRec = some r`) →
  `DuplicateKeyError` caught, `false`, store holds `r`;
* record with status `failed` → the filter matches, `$set` applies
  (`modified_count > 0` since the status changes), `true`;
* record with status `completed` or `pending` → the filter matches
  nothing, the upsert insert hits the unique index on `url`,
  `DuplicateKeyError` caught, `false`, record untouched;
* `PyMongoError` → `DatabaseError("mark_pending", cause)`. -/
def MetadataRepository.mark_pending (now newId : Nat)
    (pyFault : Option String) (raceRec : Option MRec)
    (st : Option MRec) : Except DatabaseError (Bool × Option MRec) :=
  match pyFault with
  | some m => .error ⟨"mark_pending", m⟩
  | none =>
    match st with
    | some r =>
        if r.status = .completed ∨ r.status = .pending then
          .ok (false, some r)
        else
          .ok (true, some { r with status := .pending, updatedAt := now })
    | none =>
      match raceRec with
      | none => .ok (true, some ⟨newId, .pending, none, now, now, []⟩)
      | some r => .ok (false, some r)

/-- `MetadataRepository.mark_failed` (repository.py lines 141-163):
unconditional `update_one({"url": url}, {"$set": {status: failed,
error: reason, updated_at: now}})` — no upsert, so silent when the
record is absent.  A `PyMongoError` is caught and only logged: the
operation never raises, hence the `Except` is always `.ok`. -/
def MetadataRepository.mark_failed (reason : String) (now : Nat)
    (pyFault : Option String)
    (st : Option MRec) : Except DatabaseError (Option MRec) :=
  match pyFault with
  | some _ => .ok st
  | none =>
    match st with
    | some r =>
        .ok (some { r with status := .failed, error := some reason, updatedAt := now })
    | none => .ok none

/-! ## Configuration (`app/core/config.py`) -/

/-- `Settings.kafka_max_retries` default (config.py lines 58-61). -/
def Settings.kafka_max_retries : Nat := 3

/-- `Settings.http_timeout` default (config.py lines 26-29). -/
def Settings.http_timeout : Nat := 30

/-- `Settings.kafka_topic` default (config.py lines 46-49). -/
def Settings.kafka_topic : String := "metadata-tasks"

/-- `Settings.kafka_dlq_topic` default (config.py lines 54-57). -/
def Settings.kafka_dlq_topic : String := "metadata-tasks-dlq"

/-! ## Fetcher outcome classification (`app/infrastructure/crawler/http_client.py`)

`fetch_url` performs one GET (redirects followed) and classifies the
outcome.  The HTTP round-trip itself is external; its result is the
`FetchOutcome` oracle: either a final response (status, headers, cookies,
body) or one of the `httpx` exception classes the code catches.  A TLS
certificate-verification failure surfaces from `httpx` as a
`ConnectError` whose message contains the OpenSSL text (for example
`"[SSL: CERTIFICATE_VERIFY_FAILED] certificate verify failed"`), so it
arrives at the `except httpx.ConnectError` branch. -/

/-- Payload of a successful collection (http_client.py lines 32-39). -/
structure CollectedData where
  headers : List (String × String)
  cookies : List (String × String)
  page_source : String
  status_code : Nat
deriving DecidableEq, Repr

/-- The `httpx` exceptions caught by `fetch_url`, with the message text
the classifier inspects. -/
inductive HttpxError where
  | timeoutEx (msg : String)
  | tooManyRedirects (msg : String)
  | connectError (msg : String)
  | httpStatusError (status : Nat)
  | otherHttpError (msg : String)
deriving DecidableEq, Repr

/-- Result of the external HTTP round-trip inside `fetch_url`. -/
inductive FetchOutcome where
  | response (status : Nat) (headers cookies : List (String × String)) (body : String)
  | httpxErr (e : HttpxError)
deriving DecidableEq, Repr

/-- What `fetch_url` does with an outcome: return data or raise one of
the classified exceptions of `app/core/exceptions.py`. -/
inductive CollectionOutcome where
  | success (d : CollectedData)
  | permanentError (url reason : String)
  | transientError (url reason : String)
  | collectionError (url reason : String)
deriving DecidableEq, Repr

/-- http_client.py line 26. -/
def PERMANENT_STATUS_CODES : List Nat := [400, 401, 403, 404, 405, 406, 410, 414, 451]

/-- http_client.py line 29. -/
def TRANSIENT_STATUS_CODES : List Nat := [408, 429, 500, 502, 503, 504]

/-- Is `pat` a contiguous substring of `l`? (Python's `in` on strings.) -/
def listIsInfix (pat : List Char) : List Char → Bool
  | [] => pat.isEmpty
  | c :: rest => (pat.isPrefixOf (c :: rest)) || listIsInfix pat rest

/-- ASCII-wise lowercase of a string, as a char list. (Python `str.lower`
also maps non-ASCII letters; every string the classifier matches on is
ASCII.) -/
def lowerChars (l : List Char) : List Char := l.map Char.toLower

/-- Python `needle in haystack.lower()` for the DNS-substring test. -/
def containsLower (haystack needle : String) : Bool :=
  listIsInfix needle.data (lowerChars haystack.data)

/-- The DNS-resolution-failure test of http_client.py lines 125-130:
`str(exc).lower()` contains one of the four substrings. -/
def isDnsFailureMsg (msg : String) : Bool :=
  containsLower msg "name or service not known" ||
  containsLower msg "nodename nor servname" ||
  containsLower msg "no address associated" ||
  containsLower msg "getaddrinfo failed"

/-- `fetch_url` (http_client.py lines 42-154) as a function of the HTTP
round-trip outcome. -/
def fetch_url (url : String) (o : FetchOutcome) : CollectionOutcome :=
  match o with
  | .response status headers cookies body =>
      if status ∈ PERMANENT_STATUS_CODES then
        .permanentError url ("HTTP " ++ toString status ++ " — permanent failure")
      else if status ∈ TRANSIENT_STATUS_CODES then
        .transientError url ("HTTP " ++ toString status ++ " — server error, retryable")
      else
        .success ⟨headers, cookies, body, status⟩
  | .httpxErr e =>
    match e with
    | .timeoutEx _ =>
        .transientError url ("Request timed out after " ++ toString Settings.http_timeout ++ "s")
    | .tooManyRedirects _ => .permanentError url "Too many redirects"
    | .connectError msg =>
        if isDnsFailureMsg msg then
          .permanentError url ("DNS resolution failed — domain does not exist: " ++ msg)
        else
          .transientError url ("Connection failed: " ++ msg)
    | .httpStatusError status =>
        if status ∈ PERMANENT_STATUS_CODES then .permanentError url ("HTTP " ++ toString status)
        else if status ∈ TRANSIENT_STATUS_CODES then .transientError url ("HTTP " ++ toString status)
        else .collectionError url ("HTTP " ++ toString status)
    | .otherHttpError msg => .transientError url msg


/-! ## Queue producer (`app/infrastructure/messaging/producer.py`)

The module-level `_producer` handle is `none` before `init_producer()`
runs and again after `close_producer()`; `some ()` while initialized.
Each publish operation first checks the handle and raises `RuntimeError`
when it is `none`.  The payloads are the JSON documents built by the
source, modelled structurally. -/

/-- The JSON payloads the producer serializes (producer.py lines
139, 173, 199-203).  `enqueue` omits `retry_count` (implicitly 0). -/
inductive Payload where
  | task (url : String) (retry_count : Option Nat)
  | dlq (url : String) (retry_count : Nat) (error : String)
deriving DecidableEq, Repr

/-- Errors a publish operation can raise. -/
inductive ProducerError where
  | runtimeNotInit
  | bufferFull
deriving DecidableEq, Repr

/-- `enqueue` (producer.py lines 118-157): raises `RuntimeError` when the
producer is uninitialized; raises `BufferError` (after attempting the
produce) when the internal buffer is full; otherwise publishes
`{"url": url}` to the main topic.  The returned list is the messages
handed to the broker, `(topic, payload)`. -/
def enqueue (producer : Option Unit) (bufferFull : Bool)
    (url : String) : Except ProducerError (List (String × Payload)) :=
  match producer with
  | none => .error .runtimeNotInit
  | some _ =>
      if bufferFull then .error .bufferFull
      else .ok [(Settings.kafka_topic, .task url none)]

/-- `publish_with_retry` (producer.py lines 160-184): raises
`RuntimeError` when uninitialized; otherwise publishes
`{"url": url, "retry_count": retry_count}` to the main topic. -/
def publish_with_retry (producer : Option Unit)
    (url : String) (retry_count : Nat) :
    Except ProducerError (List (String × Payload)) :=
  match producer with
  | none => .error .runtimeNotInit
  | some _ => .ok [(Settings.kafka_topic, .task url (some retry_count))]

/-- `publish_to_dlq` (producer.py lines 187-214): raises `RuntimeError`
when uninitialized; otherwise publishes
`{"url": url, "retry_count": retry_count, "error": error}` to the
dead-letter topic. -/
def publish_to_dlq (producer : Option Unit)
    (url : String) (retry_count : Nat) (error : String) :
    Except ProducerError (List (String × Payload)) :=
  match producer with
  | none => .error .runtimeNotInit
  | some _ => .ok [(Settings.kafka_dlq_topic, .dlq url retry_count error)]

/-! ## Consumer dispatch (`app/infrastructure/messaging/consumer.py`)

The per-message part of `_consume_loop` (lines 114-173): after a valid
message `{url, retry_count}` is decoded, `process_url(url)` runs and its
outcome decides what is published, whether the record is marked failed,
and the offset commit.  `process_url` (worker.py) raises
`PermanentCollectionError` / `TransientCollectionError` per the fetch
classification; anything else lands in the
`except (TransientCollectionError, Exception)` branch as well. -/

/-- Outcome of one `process_url(url)` call as seen by the consumer. -/
inductive ProcessResult where
  | ok
  | permanentFail (msg : String)
  | transientFail (msg : String)
deriving DecidableEq, Repr

/-- Observable effects of handling one consumed message. -/
structure WorkerEffects where
  /-- `retry_count` values republished to the main topic. -/
  republished : List Nat
  /-- `(retry_count, error)` of messages published to the DLQ topic. -/
  dlqPublished : List (Nat × String)
  /-- whether `mark_failed` was invoked on the record. -/
  markedFailed : Bool
  /-- whether the message offset was committed. -/
  committed : Bool
deriving DecidableEq, Repr

/-- consumer.py lines 117-173: dispatch of one valid message carrying
`retry_count`, given the outcome of `process_url`.

* success → commit only;
* `PermanentCollectionError` → DLQ publish with the *incoming*
  `retry_count`, `mark_failed`, commit;
* transient (or any other exception) → `retry_count += 1`; if the new
  count is `≥ kafka_max_retries`, DLQ publish with the new count,
  `mark_failed`, commit; otherwise republish with the new count, commit.
  (Publish failures are themselves swallowed and the offset is committed
  regardless — the commit is unconditional in every branch.) -/
def handle_message (maxRetries : Nat) (retry_count : Nat) (r : ProcessResult) :
    WorkerEffects :=
  match r with
  | .ok => ⟨[], [], false, true⟩
  | .permanentFail msg => ⟨[], [(retry_count, msg)], true, true⟩
  | .transientFail msg =>
      let n := retry_count + 1
      if n ≥ maxRetries then ⟨[], [(n, msg)], true, true⟩
      else ⟨[n], [], false, true⟩

/-- The delivery chain for a URL whose processing fails transiently on
every attempt: each delivery is handled by `handle_message`, and a
republished message comes back as the next delivery with the incremented
`retry_count` it carried.  The chain ends with the delivery that routes
to the DLQ.  `fuel` bounds the recursion; any `fuel ≥ maxRetries` is
enough for a chain started at `retry_count = 0`. -/
def transientDeliveryChain (maxRetries : Nat) (msg : String) :
    Nat → Nat → List WorkerEffects
  | 0, _ => []
  | fuel + 1, rc =>
      let e := handle_message maxRetries rc (.transientFail msg)
      if rc + 1 < maxRetries then
        e :: transientDeliveryChain maxRetries msg fuel (rc + 1)
      else
        [e]

/-! ## Metadata service (`app/domain/metadata_service.py`) -/

/-- What `MetadataService.get_metadata` is observed to do. -/
inductive SvcResult where
  /-- `normalize_url` raised (propagates a `ValueError`). -/
  | raised
  /-- a repository call raised `DatabaseError`. -/
  | dbError (e : DatabaseError)
  /-- normal return `(record | none, found)`. -/
  | ok (rec? : Option MRec) (found : Bool)
deriving DecidableEq, Repr

/-- Return value, post-state and enqueue activity of one
`get_metadata` call. -/
structure SvcOut where
  result : SvcResult
  store : Option MRec
  /-- number of `enqueue` calls attempted. -/
  enqueueAttempts : Nat
  /-- number of `enqueue` calls that succeeded. -/
  enqueueSuccesses : Nat
deriving DecidableEq, Repr

/-- The cache-miss tail of `get_metadata` (metadata_service.py lines
96-111): attempt `mark_pending`; when it returns `True`, attempt
`enqueue`, swallowing any exception from it; return `(None, False)`. -/
def MetadataService.getMetadataMiss (url : String) (st : Option MRec)
    (now newId : Nat) (mpFault : Option String) (raceRec : Option MRec)
    (producer : Option Unit) (bufferFull : Bool) : SvcOut :=
  match MetadataRepository.mark_pending now newId mpFault raceRec st with
  | .error e => ⟨.dbError e, st, 0, 0⟩
  | .ok (was_marked, st') =>
      if was_marked then
        match enqueue producer bufferFull url with
        | .ok _ => ⟨.ok none false, st', 1, 1⟩
        | .error _ => ⟨.ok none false, st', 1, 0⟩
      else
        ⟨.ok none false, st', 0, 0⟩

/-- `MetadataService.get_metadata` (metadata_service.py lines 68-111)
over the store state `st` of the canonical URL:

1. `normalize_url(raw_url)` (a raise propagates);
2. `find_by_url`;
3. if a record exists with status `completed` → `(record, True)`;
4. otherwise the cache-miss tail `getMetadataMiss` runs.

`canon` is the result of canonicalization when it succeeds (supplied by
`normalize_url` below); oracle parameters as in the repository model,
plus the producer state and buffer flag for the enqueue attempt. -/
def MetadataService.get_metadata (canon : Option String) (st : Option MRec)
    (now newId : Nat) (findFault mpFault : Option String)
    (raceRec : Option MRec) (producer : Option Unit) (bufferFull : Bool) :
    SvcOut :=
  match canon with
  | none => ⟨.raised, st, 0, 0⟩
  | some url =>
    match MetadataRepository.find_by_url findFault st with
    | .error e => ⟨.dbError e, st, 0, 0⟩
    | .ok doc =>
      match doc with
      | some r =>
          if r.status = .completed then
            ⟨.ok (some r) true, st, 0, 0⟩
          else
            MetadataService.getMetadataMiss url st now newId mpFault raceRec
              producer bufferFull
      | none =>
          MetadataService.getMetadataMiss url st now newId mpFault raceRec
            producer bufferFull

/-! ## CPython `urllib.parse` model — string primitives

`normalize_url` (app/utils/url_normalizer.py) is built on CPython's
`urllib.parse` (`urlparse`, `urlunparse`, `parse_qs`, `urlencode`) and on
`str` methods.  This section models those, operating on `List Char`
(Python `str` is a sequence of code points; Lean `Char` excludes
surrogate code points, which cannot reach the URL pipeline anyway since
`str.encode("utf-8")` rejects them).  The reference is the CPython
3.11 source of `Lib/urllib/parse.py`.  Case mapping (`str.lower`) is
modelled for ASCII (`Char.toLower`); the claims proved below are
restricted to ASCII inputs, where the model and CPython agree. -/

/-- `c` is an ASCII code point (Python `str.isascii` per character). -/
def isAsciiChar (c : Char) : Bool := c.toNat ≤ 0x7f

/-- ASCII decimal digit. -/
def isAsciiDigitChar (c : Char) : Bool := 48 ≤ c.toNat && c.toNat ≤ 57

/-- ASCII letter (for the scheme test `url[0].isalpha()`, which is
applied after `url[0].isascii()`). -/
def isAsciiAlphaChar (c : Char) : Bool :=
  (65 ≤ c.toNat && c.toNat ≤ 90) || (97 ≤ c.toNat && c.toNat ≤ 122)

/-- Characters valid in scheme names (`urllib.parse.scheme_chars`). -/
def isSchemeChar (c : Char) : Bool :=
  isAsciiAlphaChar c || isAsciiDigitChar c || c == '+' || c == '-' || c == '.'

/-- Python `s.partition(sep)` for a one-character separator:
`(before, separator-found, after)`, splitting at the first occurrence. -/
def pyPartition (sep : Char) (l : List Char) : List Char × Bool × List Char :=
  (l.takeWhile (fun c => c != sep),
   match l.dropWhile (fun c => c != sep) with
   | [] => (false, [])
   | _ :: tail => (true, tail))

/-- Python `s.rpartition(sep)`: split at the last occurrence;
`(before, separator-found, after)`. -/
def pyRPartition (sep : Char) (l : List Char) : List Char × Bool × List Char :=
  let (revAfter, found, revBefore) := pyPartition sep l.reverse
  (revBefore.reverse, found, revAfter.reverse)

/-- Python `s.split(sep)` for a one-character separator (full split;
`"".split(sep) == [""]`). -/
def pySplitChar (sep : Char) : List Char → List (List Char)
  | [] => [[]]
  | c :: rest =>
      if c = sep then [] :: pySplitChar sep rest
      else
        match pySplitChar sep rest with
        | [] => [[c]]
        | h :: t => (c :: h) :: t

/-- Python `s.replace(a, b)` for one-character arguments. -/
def pyReplaceChar (a b : Char) (l : List Char) : List Char :=
  l.map (fun c => if c = a then b else c)

/-- Index of the first occurrence of `c` at position `≥ start`
(Python `s.find(c, start)`), if any. -/
def pyFindFrom (c : Char) (l : List Char) (start : Nat) : Option Nat :=
  match (l.drop start).findIdx? (fun x => x == c) with
  | none => none
  | some i => some (start + i)

/-- Index of the last occurrence of `c` (Python `s.rfind(c)`), if any. -/
def pyRFind (c : Char) (l : List Char) : Option Nat :=
  match l.reverse.findIdx? (fun x => x == c) with
  | none => none
  | some i => some (l.length - 1 - i)

/-- Little-endian decimal digits of `n`; `fuel` bounds the recursion
(`fuel ≥ n` is always enough). -/
def natDigitsRev : Nat → Nat → List Nat
  | 0, _ => []
  | fuel + 1, n => if n = 0 then [] else n % 10 :: natDigitsRev fuel (n / 10)

/-- Python `f"{n}"` for a nonnegative int: decimal rendering. -/
def pyNatStr (n : Nat) : List Char :=
  if n = 0 then ['0']
  else ((natDigitsRev n n).reverse).map (fun d => Char.ofNat (48 + d))

/-- Numeric value of an all-digit string (used by the `port` property:
`int(port)` after `port.isdigit() and port.isascii()`). -/
def pyDigitsVal (l : List Char) : Nat :=
  l.foldl (fun acc c => 10 * acc + (c.toNat - 48)) 0

/-- The `port` string check of `SplitResult.port`:
`port.isdigit() and port.isascii()` — with the string known nonempty,
this holds exactly when every character is an ASCII decimal digit. -/
def pyPortVal (l : List Char) : Option Nat :=
  if l ≠ [] ∧ l.all isAsciiDigitChar then some (pyDigitsVal l) else none

/-! ## CPython `urllib.parse` model — percent-encoding

`unquote` splits the string into maximal ASCII runs, percent-decodes
each run into bytes (`unquote_to_bytes`), and decodes those bytes as
UTF-8 with `errors="replace"`; non-ASCII characters pass through.
Since the hex digits and `%` are ASCII, this is equivalent to one pass
that turns each ASCII character (or `%XX` escape) into a byte and lets
non-ASCII characters through, then runs the UTF-8 replacing decoder
over the mixed stream, with a pass-through character terminating any
incomplete byte sequence exactly as a run boundary does.  The `if '%'
not in string` fast path of `unquote` returns the same value as the
general path (decoding all-literal ASCII bytes is the identity), so it
is not modelled separately. -/

/-- UTF-8 encoding of one scalar value (`str.encode("utf-8")`,
per character). -/
def utf8EncodeChar (c : Char) : List Nat :=
  let n := c.toNat
  if n < 0x80 then [n]
  else if n < 0x800 then [0xC0 + n / 64, 0x80 + n % 64]
  else if n < 0x10000 then
    [0xE0 + n / 4096, 0x80 + (n / 64) % 64, 0x80 + n % 64]
  else
    [0xF0 + n / 262144, 0x80 + (n / 4096) % 64, 0x80 + (n / 64) % 64,
     0x80 + n % 64]

/-- UTF-8 encoding of a string as a byte (0..255) list. -/
def utf8Encode (l : List Char) : List Nat :=
  (l.map utf8EncodeChar).flatten

/-- A UTF-8 continuation byte. -/
def isContByte (b : Nat) : Bool := decide (0x80 ≤ b ∧ b < 0xC0)

/-- U+FFFD, the replacement character emitted by `errors="replace"`. -/
def replChar : Char := Char.ofNat 0xFFFD

/-- Classification of a byte in initial decoder state: an ASCII byte is
emitted directly, a valid lead byte opens a multi-byte sequence
(recording how many continuation bytes are needed, the accumulated
value, and the allowed range for the next byte — E0/ED/F0/F4 restrict
it to exclude overlong encodings, surrogates and values above
U+10FFFF), anything else is invalid. -/
inductive LeadResult where
  | emit (c : Char)
  | start (need acc lo hi : Nat)
  | bad
deriving DecidableEq, Repr

/-- Lead-byte table of the UTF-8 decoder. -/
def utf8Lead (b : Nat) : LeadResult :=
  if b < 0x80 then .emit (Char.ofNat b)
  else if 0xC2 ≤ b ∧ b ≤ 0xDF then .start 1 (b - 0xC0) 0x80 0xBF
  else if b = 0xE0 then .start 2 0 0xA0 0xBF
  else if b = 0xED then .start 2 13 0x80 0x9F
  else if 0xE1 ≤ b ∧ b ≤ 0xEF then .start 2 (b - 0xE0) 0x80 0xBF
  else if b = 0xF0 then .start 3 0 0x90 0xBF
  else if b = 0xF4 then .start 3 4 0x80 0x8F
  else if 0xF1 ≤ b ∧ b ≤ 0xF3 then .start 3 (b - 0xF0) 0x80 0xBF
  else .bad

/-- UTF-8 decoding with replacement over a mixed stream: `.inl b` is a
byte from an ASCII run (literal or `%XX`-decoded), `.inr c` a
pass-through non-ASCII character, which interrupts any byte sequence
exactly like the ASCII-run boundary it came from.  The pending state is
`some (need, acc, lo, hi)` inside a multi-byte sequence.  On an invalid
or truncated sequence one U+FFFD is emitted for the maximal valid
prefix and the offending item is reprocessed in initial state, as
CPython's `replace` error handler does. -/
def utf8DecodeAux : Option (Nat × Nat × Nat × Nat) → List (Nat ⊕ Char) → List Char
  | none, [] => []
  | some _, [] => [replChar]
  | none, .inr c :: rest => c :: utf8DecodeAux none rest
  | some _, .inr c :: rest => replChar :: c :: utf8DecodeAux none rest
  | none, .inl b :: rest =>
      (match utf8Lead b with
       | .emit c => c :: utf8DecodeAux none rest
       | .start n a lo hi => utf8DecodeAux (some (n, a, lo, hi)) rest
       | .bad => replChar :: utf8DecodeAux none rest)
  | some (need, acc, lo, hi), .inl b :: rest =>
      if lo ≤ b ∧ b ≤ hi then
        (if need ≤ 1 then
          Char.ofNat (acc * 64 + (b - 0x80)) :: utf8DecodeAux none rest
        else
          utf8DecodeAux (some (need - 1, acc * 64 + (b - 0x80), 0x80, 0xBF)) rest)
      else
        replChar ::
          (match utf8Lead b with
           | .emit c => c :: utf8DecodeAux none rest
           | .start n a lo' hi' => utf8DecodeAux (some (n, a, lo', hi')) rest
           | .bad => replChar :: utf8DecodeAux none rest)

/-- `bytes.decode("utf-8", "replace")` over the mixed stream. -/
def utf8DecodeReplace (l : List (Nat ⊕ Char)) : List Char :=
  utf8DecodeAux none l

/-- Value of an ASCII hex digit, if it is one (`urllib`'s `_hexdig`
table covers both cases). -/
def hexDigitVal (c : Char) : Option Nat :=
  if 48 ≤ c.toNat ∧ c.toNat ≤ 57 then some (c.toNat - 48)
  else if 65 ≤ c.toNat ∧ c.toNat ≤ 70 then some (c.toNat - 55)
  else if 97 ≤ c.toNat ∧ c.toNat ≤ 102 then some (c.toNat - 87)
  else none

/-- State of the percent-decoding scan: initial; just saw `%`; saw `%`
and one hex digit (kept with its character so it can be re-emitted
literally when the second digit is missing). -/
inductive PctState where
  | normal
  | sawPct
  | sawPctHex (v1 : Nat) (c1 : Char)
deriving DecidableEq, Repr

/-- Emission of a single non-escape character: an ASCII character
becomes its code-point byte, a non-ASCII character passes through. -/
def pctStep (c : Char) : Nat ⊕ Char :=
  if isAsciiChar c then .inl c.toNat else .inr c

/-- One pass of percent-decoding into the mixed byte/char stream:
`%XX` with two hex digits becomes the byte, any other ASCII character
its code-point byte, and non-ASCII characters pass through; an invalid
escape leaves `%` (byte 37) and its following characters literal, as in
`unquote_to_bytes`. -/
def pctDecAux : PctState → List Char → List (Nat ⊕ Char)
  | .normal, [] => []
  | .sawPct, [] => [.inl 37]
  | .sawPctHex _ c1, [] => [.inl 37, .inl c1.toNat]
  | .normal, c :: rest =>
      if c = '%' then pctDecAux .sawPct rest
      else pctStep c :: pctDecAux .normal rest
  | .sawPct, c :: rest =>
      (match hexDigitVal c with
       | some v1 => pctDecAux (.sawPctHex v1 c) rest
       | none =>
           .inl 37 ::
             (if c = '%' then pctDecAux .sawPct rest
              else pctStep c :: pctDecAux .normal rest))
  | .sawPctHex v1 c1, c :: rest =>
      (match hexDigitVal c with
       | some v2 => .inl (16 * v1 + v2) :: pctDecAux .normal rest
       | none =>
           .inl 37 :: .inl c1.toNat ::
             (if c = '%' then pctDecAux .sawPct rest
              else pctStep c :: pctDecAux .normal rest))

/-- See `pctDecAux`. -/
def percentDecodeMixed (l : List Char) : List (Nat ⊕ Char) :=
  pctDecAux .normal l

/-- `urllib.parse.unquote(s, "utf-8", "replace")`. -/
def pyUnquote (l : List Char) : List Char :=
  utf8DecodeReplace (percentDecodeMixed l)

/-- The always-safe byte set of `quote` (`_ALWAYS_SAFE`): ASCII
letters, digits, `_`, `.`, `-`, `~`; `quote_plus` is called with an
empty extra `safe` set. -/
def isAlwaysSafeByte (b : Nat) : Bool :=
  decide ((65 ≤ b ∧ b ≤ 90) ∨ (97 ≤ b ∧ b ≤ 122) ∨ (48 ≤ b ∧ b ≤ 57) ∨
    b = 95 ∨ b = 46 ∨ b = 45 ∨ b = 126)

/-- Uppercase hex digit (for `'%{:02X}'.format(b)`). -/
def hexUpper (n : Nat) : Char :=
  if n < 10 then Char.ofNat (48 + n) else Char.ofNat (55 + n)

/-- `quote_plus(s)` with the default empty `safe` set: encode as UTF-8;
a space byte becomes `+`, a safe byte stays literal, anything else
becomes `%XX` with uppercase hex.  (The space-to-`+` branch of the
Python source only runs when the string contains a space, but byte 32
occurs in the encoding exactly then, so the single map below agrees
with it pointwise; likewise the all-safe fast path of
`quote_from_bytes` returns the same value as the general path.) -/
def pyQuotePlus (l : List Char) : List Char :=
  ((utf8Encode l).map (fun b =>
    if b = 32 then ['+']
    else if isAlwaysSafeByte b then [Char.ofNat b]
    else ['%', hexUpper (b / 16), hexUpper (b % 16)])).flatten

/-! ## CPython `urllib.parse` model — query strings

`parse_qsl(qs, keep_blank_values=True)`, `parse_qs` (which groups the
pairs into an insertion-ordered dict of value lists), Python `sorted`
by first component, and `urlencode` over a pair list. -/

/-- `parse_qsl(qs, keep_blank_values=True)` with the default `&`
separator: empty query → no pairs; split on `&`; skip empty chunks;
split each chunk at the first `=` (a chunk without `=` gets an empty
value); apply `+ → space` then `unquote` to both name and value. -/
def parse_qsl_kb (qs : List Char) : List (List Char × List Char) :=
  if qs = [] then []
  else
    (pySplitChar '&' qs).filterMap (fun nv =>
      if nv = [] then none
      else
        let (name, _, value) := pyPartition '=' nv
        some (pyUnquote (pyReplaceChar '+' ' ' name),
              pyUnquote (pyReplaceChar '+' ' ' value)))

/-- Append `v` to the entry of `k` in an insertion-ordered dict
(association list), creating the entry at the end if absent. -/
def qsInsert (k v : List Char) :
    List (List Char × List (List Char)) → List (List Char × List (List Char))
  | [] => [(k, [v])]
  | (k', vs) :: rest =>
      if k' = k then (k', vs ++ [v]) :: rest else (k', vs) :: qsInsert k v rest

/-- `parse_qs(qs, keep_blank_values=True)`: group the `parse_qsl` pairs
by name, in insertion order. -/
def parse_qs_kb (qs : List Char) : List (List Char × List (List Char)) :=
  (parse_qsl_kb qs).foldl (fun m p => qsInsert p.1 p.2 m) []

/-- Python string `<`: lexicographic on code points. -/
def pyStrLt : List Char → List Char → Bool
  | [], [] => false
  | [], _ :: _ => true
  | _ :: _, [] => false
  | x :: xs, y :: ys =>
      if x.toNat < y.toNat then true
      else if y.toNat < x.toNat then false
      else pyStrLt xs ys

/-- Stable insertion of a pair into a key-sorted list: the new element
goes after existing elements whose key is not greater (Python `sorted`
is stable). -/
def insertPairSorted (x : List Char × List Char) :
    List (List Char × List Char) → List (List Char × List Char)
  | [] => [x]
  | y :: ys =>
      if pyStrLt x.1 y.1 then x :: y :: ys else y :: insertPairSorted x ys

/-- `sorted(pairs, key=lambda p: p[0])`. -/
def pySortPairs (l : List (List Char × List Char)) :
    List (List Char × List Char) :=
  l.foldl (fun acc x => insertPairSorted x acc) []

/-- `urlencode(pairs)` (non-`doseq`): `quote_plus` each component, join
`k=v` chunks with `&`. -/
def urlencodePairs : List (List Char × List Char) → List Char
  | [] => []
  | [(k, v)] => pyQuotePlus k ++ '=' :: pyQuotePlus v
  | (k, v) :: rest =>
      pyQuotePlus k ++ '=' :: pyQuotePlus v ++ '&' :: urlencodePairs rest

/-! ## CPython `urllib.parse` model — URL splitting

`urlsplit` / `urlparse` (CPython 3.11), restricted to `str` input with
default arguments, as called by `normalize_url`; plus the
`SplitResult.hostname` / `.port` properties and `urlunsplit`.
The `_checknetloc` NFKC check is a no-op for ASCII netlocs; it is not
modelled (every theorem below quantifies over ASCII inputs only, where
CPython returns without consulting it). -/

/-- The scheme lists of `urllib.parse` that matter here:
`uses_netloc` (for `urlunsplit`) and `uses_params` (for the `;`
parameter split of `urlparse`). -/
def uses_netloc : List String :=
  ["", "ftp", "http", "gopher", "nntp", "telnet", "imap", "wais", "file",
   "mms", "https", "shttp", "snews", "prospero", "rtsp", "rtspu", "rsync",
   "svn", "svn+ssh", "sftp", "nfs", "git", "git+ssh", "ws", "wss"]

/-- See `uses_netloc`. -/
def uses_params : List String :=
  ["", "ftp", "hdl", "prospero", "http", "imap", "https", "shttp", "rtsp",
   "rtspu", "sip", "sips", "mms", "sftp", "tel"]

/-- The five components of `urlsplit` (named tuple `SplitResult`). -/
structure SplitResult where
  scheme : List Char
  netloc : List Char
  path : List Char
  query : List Char
  fragment : List Char
deriving DecidableEq, Repr

/-- `ipaddress.IPv4Address` textual validity (CPython 3.11
`_ip_int_from_string` / `_parse_octet`): four dot-separated octets,
each 1-3 ASCII digits, no leading zero (except `"0"` itself), value
at most 255.  Used only by the bracketed-host check. -/
def ipv4Valid (l : List Char) : Bool :=
  let parts := pySplitChar '.' l
  parts.length = 4 && parts.all (fun p =>
    p ≠ [] && p.length ≤ 3 && p.all isAsciiDigitChar &&
    (p.take 1 ≠ ['0'] || p = ['0']) && pyDigitsVal p ≤ 255)

/-- One IPv6 hextet: 1-4 ASCII hex digits (CPython `_parse_hextet`). -/
def hextetValid (p : List Char) : Bool :=
  p ≠ [] && p.length ≤ 4 && p.all (fun c => (hexDigitVal c).isSome)

/-- `ipaddress.IPv6Address` textual validity (CPython 3.11
`_ip_int_from_string`), including an optional `%scope` suffix
(nonempty, no further `%`) and an optional trailing dotted-quad IPv4
part (counting as two hextets).  Only reachability matters: no theorem
below depends on this function (bracketed hosts are excluded by
hypothesis); it exists so that the model of `urlsplit` is total and
faithful on bracketed inputs. -/
def ipv6Valid (l : List Char) : Bool :=
  let (addr, hasScope, scope) := pyPartition '%' l
  (if hasScope then scope ≠ [] && !(scope.contains '%') else true) &&
  (let parts0 := pySplitChar ':' addr
   if parts0.length < 3 then false
   else
     let lastPart := parts0.getLast?.getD []
     let usesV4 := lastPart.contains '.'
     if usesV4 && !(ipv4Valid lastPart) then false
     else
       -- with a trailing IPv4 part the last element counts as 2 hextets
       let parts := if usesV4 then parts0.dropLast ++ [['0'], ['0']] else parts0
       let inner := (parts.drop 1).dropLast
       let emptyInner := inner.countP (fun p => p = [])
       if emptyInner > 1 then false
       else if emptyInner = 1 then
         -- one "::" among the inner parts
         let hiParts := parts.takeWhile (fun p => p ≠ [])
         let loParts := (parts.reverse.takeWhile (fun p => p ≠ [])).reverse
         -- a leading/trailing single ":" is only allowed as part of "::"
         (parts.take 1 ≠ [([] : List Char)] || parts.take 2 = [[], []]) &&
         (parts.getLast? ≠ some [] || (parts.drop (parts.length - 2)) = [[], []]) &&
         hiParts.length + loParts.length + 1 ≤ 8 &&
         hiParts.all hextetValid && loParts.all hextetValid
       else
         -- no "::": exactly 8 parts, none empty anywhere
         parts.length = 8 && parts.all (fun p => p ≠ [] && hextetValid p))

/-- `_check_bracketed_host` (CPython 3.11): an IPvFuture literal
`v<hex>+.<anything nonempty>`, or a valid IP address that is not IPv4
(an IPv4 address cannot be in brackets). -/
def checkBracketedHost (h : List Char) : Bool :=
  if h.take 1 = ['v'] then
    let t := h.drop 1
    let hexRun := t.takeWhile (fun c => (hexDigitVal c).isSome)
    let rest := t.dropWhile (fun c => (hexDigitVal c).isSome)
    hexRun ≠ [] && rest.take 1 = ['.'] && rest.drop 1 ≠ []
  else if ipv4Valid h then false
  else ipv6Valid h

/-- `_WHATWG_C0_CONTROL_OR_SPACE` characters (code points ≤ 0x20). -/
def isC0OrSpace (c : Char) : Bool := c.toNat ≤ 0x20

/-- `_UNSAFE_URL_BYTES_TO_REMOVE`: tab, CR, LF. -/
def isUnsafeUrlChar (c : Char) : Bool := c == '\t' || c == '\r' || c == '\n'

/-- `urlsplit(url)` (CPython 3.11, `str` input, default `scheme=\'\'`,
`allow_fragments=True`): strip leading C0-control-or-space, remove
tab/CR/LF everywhere, detect the scheme (a `:` at position > 0 with
every preceding character a scheme character and an ASCII letter
first), split off `//netloc` up to the first of `/?#` with the
bracket checks, then split the fragment at the first `#` and the query
at the first `?`.  `.error ()` models the `ValueError` raises. -/
def pyUrlsplit (url0 : List Char) : Except Unit SplitResult :=
  let url1 := (url0.dropWhile isC0OrSpace).filter (fun c => !(isUnsafeUrlChar c))
  let (schemePre, found, afterColon) := pyPartition ':' url1
  let hasScheme := found && schemePre ≠ [] &&
    (schemePre.take 1).all (fun c => isAsciiChar c && isAsciiAlphaChar c) &&
    schemePre.all isSchemeChar
  let scheme := if hasScheme then lowerChars schemePre else []
  let rest := if hasScheme then afterColon else url1
  if rest.take 2 = ['/', '/'] then
    let after := rest.drop 2
    let netloc := after.takeWhile (fun c => !(c == '/' || c == '?' || c == '#'))
    let rest2 := after.dropWhile (fun c => !(c == '/' || c == '?' || c == '#'))
    if (netloc.contains '[' && !(netloc.contains ']')) ||
       (netloc.contains ']' && !(netloc.contains '[')) then
      .error ()
    else if netloc.contains '[' && netloc.contains ']' then
      let bh := (pyPartition ']' (pyPartition '[' netloc).2.2).1
      if checkBracketedHost bh then
        let (beforeHash, _, fragment) := pyPartition '#' rest2
        let (path, _, query) := pyPartition '?' beforeHash
        .ok ⟨scheme, netloc, path, query, fragment⟩
      else .error ()
    else
      let (beforeHash, _, fragment) := pyPartition '#' rest2
      let (path, _, query) := pyPartition '?' beforeHash
      .ok ⟨scheme, netloc, path, query, fragment⟩
  else
    let (beforeHash, _, fragment) := pyPartition '#' rest
    let (path, _, query) := pyPartition '?' beforeHash
    .ok ⟨scheme, [], path, query, fragment⟩

/-- `_splitparams(url)`: split the parameters of the last path segment
at the first `;` after the last `/` (or the first `;` overall when the
path has no `/`). -/
def pySplitparams (url : List Char) : List Char × List Char :=
  match pyRFind '/' url with
  | some r =>
      (match pyFindFrom ';' url r with
       | none => (url, [])
       | some i => (url.take i, url.drop (i + 1)))
  | none =>
      (match pyFindFrom ';' url 0 with
       | none => (url, [])
       | some i => (url.take i, url.drop (i + 1)))

/-- The six components of `urlparse` (named tuple `ParseResult`). -/
structure ParseResult where
  scheme : List Char
  netloc : List Char
  path : List Char
  params : List Char
  query : List Char
  fragment : List Char
deriving DecidableEq, Repr

/-- `urlparse(url)`: `urlsplit`, then split the path parameters when
the scheme uses them and the path contains a `;`. -/
def pyUrlparse (url : List Char) : Except Unit ParseResult :=
  match pyUrlsplit url with
  | .error e => .error e
  | .ok s =>
      if String.mk s.scheme ∈ uses_params ∧ s.path.contains ';' then
        let (p, params) := pySplitparams s.path
        .ok ⟨s.scheme, s.netloc, p, params, s.query, s.fragment⟩
      else
        .ok ⟨s.scheme, s.netloc, s.path, [], s.query, s.fragment⟩

/-- `SplitResult._hostinfo`: strip the userinfo at the last `@`; inside
brackets the hostname runs to `]` and a port may follow a later `:`;
otherwise the hostname runs to the first `:` and the port follows it.
An empty port string counts as no port. -/
def pyHostinfo (netloc : List Char) : List Char × Option (List Char) :=
  let hostinfo := (pyRPartition '@' netloc).2.2
  let (_, haveBr, bracketed) := pyPartition '[' hostinfo
  if haveBr then
    let (hostname, _, afterBr) := pyPartition ']' bracketed
    let port := (pyPartition ':' afterBr).2.2
    (hostname, if port = [] then none else some port)
  else
    let (hostname, _, port) := pyPartition ':' hostinfo
    (hostname, if port = [] then none else some port)

/-- `SplitResult.hostname` combined with the `or ""` of
`normalize_url`: empty hostname gives `""`; otherwise the part before
any `%` zone separator is lowercased and the zone is appended
unchanged. -/
def pyHostnameProp (netloc : List Char) : List Char :=
  let h := (pyHostinfo netloc).1
  if h = [] then []
  else
    let (pre, percent, zone) := pyPartition '%' h
    lowerChars pre ++ (if percent then '%' :: zone else [])

/-- `SplitResult.port`: `None` without a port string; otherwise the
string must be nonempty ASCII digits (`port.isdigit() and
port.isascii()`) with value at most 65535, else `ValueError`. -/
def pyPortProp (netloc : List Char) : Except Unit (Option Nat) :=
  match (pyHostinfo netloc).2 with
  | none => .ok none
  | some p =>
      match pyPortVal p with
      | some v => if v ≤ 65535 then .ok (some v) else .error ()
      | none => .error ()

/-- `urlunsplit` (CPython 3.11) for empty fragment, as composed by
`urlunparse` with empty `params`: the `//` is emitted when the netloc
is nonempty, or when the scheme is nonempty, uses a netloc, and the
path does not already start with `//`. -/
def pyUrlunsplit (scheme netloc path query : List Char) : List Char :=
  let url :=
    if netloc ≠ [] ∨ (scheme ≠ [] ∧ String.mk scheme ∈ uses_netloc ∧
        path.take 2 ≠ ['/', '/']) then
      let p := if path ≠ [] ∧ path.take 1 ≠ ['/'] then '/' :: path else path
      '/' :: '/' :: (netloc ++ p)
    else path
  let url2 := if scheme ≠ [] then scheme ++ ':' :: url else url
  if query ≠ [] then url2 ++ '?' :: query else url2

/-! ## `normalize_url` (`app/utils/url_normalizer.py`) -/

/-- The scheme test of normalize_url:
`url.lower().startswith(("http://", "https://"))` (ASCII lowering). -/
def hasHttpScheme (l : List Char) : Bool :=
  "http://".data.isPrefixOf (lowerChars l) ||
  "https://".data.isPrefixOf (lowerChars l)

/-- Strip all trailing `/` (Python `path.rstrip("/")`). -/
def rstripSlashes (l : List Char) : List Char :=
  (l.reverse.dropWhile (fun c => c == '/')).reverse

/-- The path normalization steps of normalize_url (lines 53-58):
remove trailing slashes unless the path is exactly `/`, then replace an
empty path by `/`. -/
def normPath (path : List Char) : List Char :=
  let p := if path ≠ ['/'] ∧ path.getLast? = some '/' then rstripSlashes path
           else path
  if p = [] then ['/'] else p

/-- The query normalization of normalize_url (lines 60-67):
`parse_qs(query, keep_blank_values=True)`, then, when nonempty, the
pairs `(k, v[0])` sorted by name and re-encoded with `urlencode`. -/
def normQuery (query : List Char) : List Char :=
  let qp := parse_qs_kb query
  if qp ≠ [] then
    urlencodePairs (pySortPairs (qp.map (fun p => (p.1, p.2.headD []))))
  else []

/-- The components `(scheme, netloc, path, query)` that `normalize_url`
passes to `urlunparse` (params and fragment are always empty). -/
structure NormComponents where
  scheme : List Char
  netloc : List Char
  path : List Char
  query : List Char
deriving DecidableEq, Repr

/-- The component computation of `normalize_url`
(app/utils/url_normalizer.py lines 32-67): prepend `https://` when the
scheme is missing; `urlparse`; lowercase scheme and hostname; drop the
default port (80 for http, 443 for https) and any port equal to 0
(`if port:`); normalize the path and the query.  `none` models the
`ValueError` raises of `urlsplit` / `SplitResult.port`. -/
def normComponents (s : String) : Option NormComponents :=
  let u0 := s.data
  let u := if !(hasHttpScheme u0) then "https://".data ++ u0 else u0
  match pyUrlparse u with
  | .error _ => none
  | .ok parsed =>
    let scheme := lowerChars parsed.scheme
    let hostname := lowerChars (pyHostnameProp parsed.netloc)
    match pyPortProp parsed.netloc with
    | .error _ => none
    | .ok port0 =>
      let port : Option Nat :=
        if (scheme = "http".data ∧ port0 = some 80) ∨
           (scheme = "https".data ∧ port0 = some 443) then none
        else port0
      let netloc :=
        match port with
        | some (pv + 1) => hostname ++ ':' :: pyNatStr (pv + 1)
        | _ => hostname
      some ⟨scheme, netloc, normPath parsed.path, normQuery parsed.query⟩

/-- `normalize_url` (app/utils/url_normalizer.py lines 14-72): the
component computation above, reassembled by `urlunparse` with empty
params and fragment. -/
def normalize_url (s : String) : Option String :=
  (normComponents s).map (fun c =>
    String.mk (pyUrlunsplit c.scheme c.netloc c.path c.query))

/-! ## Invariants of normalized components

The properties of the `(scheme, netloc, path, query)` quadruple
produced by `normComponents` on an ASCII input without `[` and `;`,
strong enough to show that re-parsing the reassembled URL recovers the
quadruple unchanged.  These are `Prop`-valued definitions used by the
idempotence theorem. -/

/-- Characters that may not occur in a normalized hostname: the netloc
delimiters, brackets, `@`, `:` and the characters `urlsplit` removes. -/
def hostForbidden : List Char :=
  ['/', '?', '#', ':', '@', '[', ']', '\t', '\r', '\n']

/-- A normalized host part: ASCII, lowercase-fixed characters, none of
the delimiter characters. -/
def HostOk (host : List Char) : Prop :=
  ∀ c ∈ host, c.toNat ≤ 0x7f ∧ Char.toLower c = c ∧ c ∉ hostForbidden

/-- A normalized netloc: a host, optionally followed by `:port` with
`1 ≤ port ≤ 65535`, the port not being the scheme's default. -/
def NetlocOk (scheme netloc : List Char) : Prop :=
  ∃ host pp,
    netloc = host ++ (match pp with
      | some p => ':' :: pyNatStr p
      | none => []) ∧
    HostOk host ∧
    (match pp with
     | some p => 1 ≤ p ∧ p ≤ 65535 ∧
         ¬(scheme = "http".data ∧ p = 80) ∧
         ¬(scheme = "https".data ∧ p = 443)
     | none => True)

/-- A normalized path: nonempty, starting with `/`, free of `?`, `#`,
`;` and of the characters `urlsplit` removes, and a fixed point of the
trailing-slash normalization. -/
def PathOk (path : List Char) : Prop :=
  path.head? = some '/' ∧
  (∀ c ∈ path, c ∉ (['?', '#', ';', '\t', '\r', '\n'] : List Char)) ∧
  (path = ['/'] ∨ path.getLast? ≠ some '/')

/-- Keys strictly increasing in Python string order. -/
def StrictSortedPairs (ps : List (List Char × List Char)) : Prop :=
  ps.Pairwise (fun a b => pyStrLt a.1 b.1 = true)

/-- A normalized query: empty, or the `urlencode` of a key-sorted pair
list. -/
def QueryOk (query : List Char) : Prop :=
  query = [] ∨ ∃ ps, ps ≠ [] ∧ StrictSortedPairs ps ∧ query = urlencodePairs ps

/-- Value of a little-endian decimal digit list (used to reason about
`natDigitsRev`). -/
def ofRevDigits : List Nat → Nat
  | [] => 0
  | d :: ds => d + 10 * ofRevDigits ds

/-- Marker: `urllib`/`normalize_url` definitions are inserted above this
line; theorems follow. -/
def urllibModelEnd : Unit := ()

/-! ## Theorems: document store adapter (C2, C3, C4, C9) -/

/-- **C2, counterexample.** The claim says no store-adapter operation
moves a `completed` record's status to anything else; but `mark_failed`
is an unconditional update: applied to a `completed` record it sets the
status to `failed`. -/
theorem mark_failed_moves_completed_to_failed :
    MetadataRepository.mark_failed "boom" 7 none
      (some ⟨1, .completed, none, 0, 0, []⟩)
      = .ok (some ⟨1, .failed, some "boom", 0, 7, []⟩) := rfl

/-- **C2, amended.** For a record with status `completed`: `upsert`
rewrites it but keeps the status `completed` (preserving `created_at`
and the id), and `mark_pending` returns `false` and leaves it unchanged
(its conditional filter excludes `completed`); `mark_failed`, however,
is excluded from the claim, as it does move `completed` to `failed`. -/
theorem completed_stable_under_upsert_and_mark_pending
    (r : MRec) (h : r.status = .completed)
    (url : String) (data : List (String × String)) (now newId : Nat)
    (raceRec : Option MRec) :
    MetadataRepository.upsert url data now newId none false none (some r) =
      .ok (r.rid, some { r with status := .completed, updatedAt := now,
                                fields := data }) ∧
    MetadataRepository.mark_pending now newId none raceRec (some r) =
      .ok (false, some r) := by
  refine ⟨rfl, ?_⟩
  simp [MetadataRepository.mark_pending, h]

/-- **C2, witness.** The amended theorem applied to a concrete
`completed` record. -/
theorem completed_stable_witness :
    MetadataRepository.upsert "https://example.com/" [("status_code", "200")]
        9 42 none false none (some ⟨5, .completed, none, 1, 2, []⟩) =
      .ok (5, some ⟨5, .completed, none, 1, 9, [("status_code", "200")]⟩) ∧
    MetadataRepository.mark_pending 9 42 none none
        (some ⟨5, .completed, none, 1, 2, []⟩) =
      .ok (false, some ⟨5, .completed, none, 1, 2, []⟩) :=
  completed_stable_under_upsert_and_mark_pending
    ⟨5, .completed, none, 1, 2, []⟩ rfl "https://example.com/"
    [("status_code", "200")] 9 42 none

/-- **C3.** `mark_pending` semantics, by case on the pre-state:
no record → conditional insert of a `pending` record with
`created_at = updated_at = now`, returns `true`; existing `failed`
record → transition to `pending` with `updated_at = now`, `true`;
existing `completed` or `pending` record → `false`, record unchanged;
duplicate-key race during the conditional insert → `false`, the
concurrently created record is left untouched. -/
theorem mark_pending_spec (now newId : Nat) (r race : MRec) :
    MetadataRepository.mark_pending now newId none none none =
      .ok (true, some ⟨newId, .pending, none, now, now, []⟩) ∧
    (r.status = .failed →
      MetadataRepository.mark_pending now newId none none (some r) =
        .ok (true, some { r with status := .pending, updatedAt := now })) ∧
    (r.status = .completed ∨ r.status = .pending →
      MetadataRepository.mark_pending now newId none none (some r) =
        .ok (false, some r)) ∧
    MetadataRepository.mark_pending now newId none (some race) none =
      .ok (false, some race) := by
  refine ⟨rfl, fun h => ?_, fun h => ?_, rfl⟩
  · have : ¬(r.status = .completed ∨ r.status = .pending) := by
      rw [h]; rintro (h' | h') <;> exact Status.noConfusion h'
    simp [MetadataRepository.mark_pending, this]
  · simp [MetadataRepository.mark_pending, h]

/-- **C3, witness.** `mark_pending` on a concrete `failed` record
transitions it to `pending`. -/
theorem mark_pending_spec_witness :
    MetadataRepository.mark_pending 5 9 none none
        (some ⟨2, .failed, some "old", 0, 1, []⟩) =
      .ok (true, some ⟨2, .pending, some "old", 0, 5, []⟩) :=
  (mark_pending_spec 5 9 ⟨2, .failed, some "old", 0, 1, []⟩
    ⟨3, .pending, none, 0, 0, []⟩).2.1 rfl

/-- **C4.** `upsert` semantics: inserting writes the payload together
with `status = completed` and `created_at = updated_at = now` and
returns the new id; updating rewrites the payload, sets
`status = completed` and `updated_at = now`, preserves `created_at`
(and the id, which is returned); a duplicate-key error from a
conflicting concurrent insert is retried exactly once by reading the
existing record, whose id is returned. -/
theorem upsert_spec (url : String) (data : List (String × String))
    (now newId : Nat) (r race : MRec) :
    MetadataRepository.upsert url data now newId none false none none =
      .ok (newId, some ⟨newId, .completed, none, now, now, data⟩) ∧
    MetadataRepository.upsert url data now newId none false none (some r) =
      .ok (r.rid, some { r with status := .completed, updatedAt := now,
                                fields := data }) ∧
    MetadataRepository.upsert url data now newId none true (some race) none =
      .ok (race.rid, some race) :=
  ⟨rfl, rfl, rfl⟩

/-- **C9, counterexample.** The claim says every store operation
(including `markFailed`) surfaces an underlying store error as a
`StoreFailure`; but `mark_failed` catches `PyMongoError` and only logs
it — with a failing store it returns normally, surfacing nothing. -/
theorem mark_failed_swallows_store_error :
    MetadataRepository.mark_failed "boom" 3 (some "connection reset by peer")
      (some ⟨1, .pending, none, 0, 0, []⟩)
      = .ok (some ⟨1, .pending, none, 0, 0, []⟩) := rfl

/-- **C9, amended.** `find_by_url`, `upsert` and `mark_pending` surface
an underlying store error as `DatabaseError` (the spec's `StoreFailure`)
carrying the operation name and the cause; `mark_failed` swallows store
errors (they are logged only; the call returns normally). -/
theorem store_errors_surface (cause url reason : String)
    (data : List (String × String)) (now newId : Nat) (st : Option MRec)
    (dupRace : Bool) (retryRead raceRec : Option MRec) :
    MetadataRepository.find_by_url (some cause) st =
      .error ⟨"find_by_url", cause⟩ ∧
    MetadataRepository.upsert url data now newId (some cause) dupRace
        retryRead st = .error ⟨"upsert", cause⟩ ∧
    MetadataRepository.mark_pending now newId (some cause) raceRec st =
      .error ⟨"mark_pending", cause⟩ ∧
    MetadataRepository.mark_failed reason now (some cause) st = .ok st :=
  ⟨rfl, rfl, rfl, rfl⟩

/-! ## Theorems: producer (C10) -/

/-- **C10.** With the producer handle uninitialized (`none` — before
`init_producer()` or after `close_producer()`), each of `enqueue`,
`publish_with_retry` and `publish_to_dlq` raises `RuntimeError` for
every url, retry count and error string; the `.error` result carries no
published messages, so nothing is published. -/
theorem uninitialized_producer_raises (url err : String) (rc : Nat)
    (bufferFull : Bool) :
    enqueue none bufferFull url = .error .runtimeNotInit ∧
    publish_with_retry none url rc = .error .runtimeNotInit ∧
    publish_to_dlq none url rc err = .error .runtimeNotInit :=
  ⟨rfl, rfl, rfl⟩

/-! ## Theorems: consumer retry accounting (C1) -/

/-- **C1, counterexample.** With `kafka_max_retries = 3` and a URL that
fails transiently on every processing attempt, the claim predicts three
re-publishes (retry_count 1, 2, 3) and a DLQ publish on the fourth
processing.  The code increments `retry_count` *before* comparing with
`>= settings.kafka_max_retries` (consumer.py lines 146-148), so the
chain has exactly two re-publishes (retry_count 1 and 2) and the DLQ
publish happens on the third processing: the republished counts are
`[1, 2]`, not `[1, 2, 3]`, and only three deliveries occur. -/
theorem retry_chain_counterexample :
    (((transientDeliveryChain Settings.kafka_max_retries "HTTP 503 — server error, retryable" 10 0).map
        WorkerEffects.republished).flatten = [1, 2] ∧
     ((transientDeliveryChain Settings.kafka_max_retries "HTTP 503 — server error, retryable" 10 0).map
        WorkerEffects.republished).flatten ≠ [1, 2, 3] ∧
     (transientDeliveryChain Settings.kafka_max_retries "HTTP 503 — server error, retryable" 10 0).length = 3) := by
  decide

/-- **C1, amended.** With `kafka_max_retries = 3`, a queued URL failing
transiently on every attempt is re-published exactly twice (carrying
retry_count 1 and 2), and on the third processing one dead-letter
publish occurs carrying retry_count 3; the offset is committed at every
delivery and `mark_failed` leaves the record's status `failed`. -/
theorem retry_chain_spec (m : String) :
    transientDeliveryChain Settings.kafka_max_retries m 10 0 =
      [⟨[1], [], false, true⟩, ⟨[2], [], false, true⟩,
       ⟨[], [(3, m)], true, true⟩] ∧
    (∀ (r : MRec) (now : Nat),
      MetadataRepository.mark_failed m now none (some r) =
        .ok (some { r with status := .failed, error := some m,
                           updatedAt := now })) :=
  ⟨rfl, fun _ _ => rfl⟩

/-! ## Theorems: fetch classification (C5) -/

/-- **C5, divergence.** A TLS certificate-verification failure reaches
`fetch_url` as an `httpx.ConnectError` whose message is the OpenSSL
text; the code's `ConnectError` branch only recognizes the four DNS
substrings and classifies everything else as transient, so the TLS
failure is raised as `TransientCollectionError` — against the module's
own docstring (http_client.py lines 7-9: "PermanentCollectionError:
4xx, DNS not found, TLS errors (no retry)"), the `PermanentCollectionError`
docstring in exceptions.py, and the claim. -/
theorem tls_failure_classified_transient (url : String) :
    fetch_url url (.httpxErr (.connectError
        "[SSL: CERTIFICATE_VERIFY_FAILED] certificate verify failed: unable to get local issuer certificate (_ssl.c:1006)")) =
      .transientError url
        "Connection failed: [SSL: CERTIFICATE_VERIFY_FAILED] certificate verify failed: unable to get local issuer certificate (_ssl.c:1006)" := by
  have h : isDnsFailureMsg
      "[SSL: CERTIFICATE_VERIFY_FAILED] certificate verify failed: unable to get local issuer certificate (_ssl.c:1006)" = false := by
    decide
  simp [fetch_url, h]

/-- **C5, witness-style instantiation** at a concrete URL (the theorem
has no `Prop` hypothesis; this records the concrete evaluation). -/
theorem tls_failure_witness :
    fetch_url "https://expired.badssl.com/" (.httpxErr (.connectError
        "[SSL: CERTIFICATE_VERIFY_FAILED] certificate verify failed: unable to get local issuer certificate (_ssl.c:1006)")) =
      .transientError "https://expired.badssl.com/"
        "Connection failed: [SSL: CERTIFICATE_VERIFY_FAILED] certificate verify failed: unable to get local issuer certificate (_ssl.c:1006)" :=
  tls_failure_classified_transient "https://expired.badssl.com/"

/-! ## Theorems: metadata service read path (C8) -/

/-- **C8.** `get_metadata` returns `(record, true)` exactly on a
`completed` hit; in every other case (no record, or a `pending` /
`failed` record) it runs the miss tail: it attempts `mark_pending`,
calls `enqueue` only if that returned `true`, swallows an enqueue
failure (the pending record stays), and returns `(none, false)`. -/
theorem get_metadata_spec (url : String) (st : Option MRec)
    (now newId : Nat) (raceRec : Option MRec) (producer : Option Unit)
    (bufferFull : Bool) :
    (∀ r, st = some r → r.status = .completed →
      MetadataService.get_metadata (some url) st now newId none none raceRec
          producer bufferFull = ⟨.ok (some r) true, st, 0, 0⟩) ∧
    ((st = none ∨ ∃ r, st = some r ∧ r.status ≠ .completed) →
      MetadataService.get_metadata (some url) st now newId none none raceRec
          producer bufferFull =
        MetadataService.getMetadataMiss url st now newId none raceRec
          producer bufferFull) ∧
    (∀ st', MetadataRepository.mark_pending now newId none raceRec st =
        .ok (true, st') →
      (producer = some () → bufferFull = false →
        MetadataService.getMetadataMiss url st now newId none raceRec
            producer bufferFull = ⟨.ok none false, st', 1, 1⟩) ∧
      (producer = none ∨ bufferFull = true →
        MetadataService.getMetadataMiss url st now newId none raceRec
            producer bufferFull = ⟨.ok none false, st', 1, 0⟩)) ∧
    (∀ st', MetadataRepository.mark_pending now newId none raceRec st =
        .ok (false, st') →
      MetadataService.getMetadataMiss url st now newId none raceRec
          producer bufferFull = ⟨.ok none false, st', 0, 0⟩) := by
  refine ⟨?_, ?_, ?_, ?_⟩
  · rintro r rfl hc
    simp [MetadataService.get_metadata, MetadataRepository.find_by_url, hc]
  · rintro (rfl | ⟨r, rfl, hr⟩)
    · simp [MetadataService.get_metadata, MetadataRepository.find_by_url]
    · simp [MetadataService.get_metadata, MetadataRepository.find_by_url, hr]
  · intro st' hmp
    constructor
    · rintro rfl rfl
      simp [MetadataService.getMetadataMiss, hmp, enqueue]
    · rintro (rfl | rfl)
      · simp [MetadataService.getMetadataMiss, hmp, enqueue]
      · cases producer <;> simp [MetadataService.getMetadataMiss, hmp, enqueue]
  · intro st' hmp
    simp [MetadataService.getMetadataMiss, hmp]

/-- **C8, witness.** The completed-hit clause and the miss clause of
`get_metadata_spec` at concrete inputs: a completed record is returned
with `found = true`; with no record and a working producer, the miss
path marks pending, enqueues once, and returns `(none, false)`. -/
theorem get_metadata_spec_witness :
    MetadataService.get_metadata (some "https://example.com/")
        (some ⟨7, .completed, none, 3, 4, []⟩) 9 42 none none none
        (some ()) false =
      ⟨.ok (some ⟨7, .completed, none, 3, 4, []⟩) true,
       some ⟨7, .completed, none, 3, 4, []⟩, 0, 0⟩ ∧
    MetadataService.getMetadataMiss "https://example.com/" none 9 42 none
        none (some ()) false =
      ⟨.ok none false, some ⟨42, .pending, none, 9, 9, []⟩, 1, 1⟩ := by
  constructor
  · exact (get_metadata_spec "https://example.com/"
      (some ⟨7, .completed, none, 3, 4, []⟩) 9 42 none (some ()) false).1
      ⟨7, .completed, none, 3, 4, []⟩ rfl rfl
  · exact ((get_metadata_spec "https://example.com/" none 9 42 none
      (some ()) false).2.2.1 (some ⟨42, .pending, none, 9, 9, []⟩) rfl).1
      rfl rfl

/-! ## Theorems: canonicalization cases (C7) -/

/-- **C7.** The nine canonicalization vectors of the specification,
evaluated on the embedded `normalize_url`. -/
theorem normalize_url_cases :
    normalize_url "google.com" = some "https://google.com/" ∧
    normalize_url "HTTP://GOOGLE.COM/Path" = some "http://google.com/Path" ∧
    normalize_url "http://google.com:80/path" = some "http://google.com/path" ∧
    normalize_url "https://google.com:443/path" =
      some "https://google.com/path" ∧
    normalize_url "http://google.com:8080/path" =
      some "http://google.com:8080/path" ∧
    normalize_url "https://google.com/page#section" =
      some "https://google.com/page" ∧
    normalize_url "https://google.com/search?z=1&a=2&m=3" =
      some "https://google.com/search?a=2&m=3&z=1" ∧
    normalize_url "https://google.com/path/" = some "https://google.com/path" ∧
    normalize_url "https://google.com" = some "https://google.com/" := by
  decide

/-! ## Theorems: canonicalizer idempotence (C6) -/

/-- **C6, counterexample.** `normalize_url` is not idempotent: for the
input `https://h/a;b/` the first pass strips only the trailing slash
(the `;` sits in the last path segment, after the last `/`, so
`urlparse` keeps it in the path), but re-parsing the output
`https://h/a;b` splits `;b` off as path parameters of the last segment
and drops it, yielding `https://h/a`. -/
theorem normalize_url_not_idempotent :
    normalize_url "https://h/a;b/" = some "https://h/a;b" ∧
    normalize_url "https://h/a;b" = some "https://h/a" ∧
    (normalize_url "https://h/a;b/").bind normalize_url ≠
      normalize_url "https://h/a;b/" := by
  decide

/-! ## Idempotence of the canonicalizer on its intended domain (towards C6)

Helper lemmas, building up to the amended idempotence theorem: on an
ASCII input without `[` and `;`, whose canonical form has a nonempty
authority (or a path not beginning with `//`), re-normalizing the
canonical URL returns it unchanged. -/

theorem char_toNat_ofNat {n : Nat} (h : n.isValidChar) :
    (Char.ofNat n).toNat = n := by
  rw [Char.ofNat, dif_pos h]
  rfl

theorem char_toLower_toNat (c : Char) :
    c.toLower.toNat =
      if 65 ≤ c.toNat ∧ c.toNat ≤ 90 then c.toNat + 32 else c.toNat := by
  have hv : c.toNat < 0x110000 := by
    rcases c.valid with h | ⟨_, h⟩
    · exact Nat.lt_trans h (by norm_num)
    · exact h
  simp only [Char.toLower]
  split
  · rename_i h
    exact char_toNat_ofNat (Or.inl (by omega))
  · rfl

theorem char_toLower_eq_self {c : Char} (h : ¬(65 ≤ c.toNat ∧ c.toNat ≤ 90)) :
    c.toLower = c := by
  simp only [Char.toLower]
  rw [if_neg (by omega)]

theorem char_toLower_idem (c : Char) : c.toLower.toLower = c.toLower := by
  by_cases h : 65 ≤ c.toNat ∧ c.toNat ≤ 90
  · apply char_toLower_eq_self
    rw [char_toLower_toNat, if_pos h]
    omega
  · rw [char_toLower_eq_self h, char_toLower_eq_self h]

theorem char_toLower_ascii {c : Char} (h : c.toNat ≤ 0x7f) :
    c.toLower.toNat ≤ 0x7f := by
  rw [char_toLower_toNat]
  split <;> omega

/-- `toLower` maps onto `d` only from `d` itself, unless `d` is a
lowercase ASCII letter. -/
theorem char_toLower_eq_of_not_lower {c d : Char}
    (hd : ¬(97 ≤ d.toNat ∧ d.toNat ≤ 122)) (h : c.toLower = d) : c = d := by
  by_cases hc : 65 ≤ c.toNat ∧ c.toNat ≤ 90
  · exfalso
    apply hd
    have := char_toLower_toNat c
    rw [if_pos hc] at this
    rw [h] at this
    omega
  · rwa [char_toLower_eq_self hc] at h

theorem takeWhile_not_mem {sep : Char} {l : List Char} (h : sep ∉ l) :
    l.takeWhile (fun c => c != sep) = l := by
  induction l with
  | nil => rfl
  | cons c rest ih =>
      simp only [List.mem_cons, not_or] at h
      rw [List.takeWhile_cons_of_pos
        (by simp only [bne_iff_ne, ne_eq]; exact fun hc => h.1 hc.symm), ih h.2]

theorem dropWhile_not_mem {sep : Char} {l : List Char} (h : sep ∉ l) :
    l.dropWhile (fun c => c != sep) = [] := by
  induction l with
  | nil => rfl
  | cons c rest ih =>
      simp only [List.mem_cons, not_or] at h
      rw [List.dropWhile_cons_of_pos
        (by simp only [bne_iff_ne, ne_eq]; exact fun hc => h.1 hc.symm), ih h.2]

theorem pyPartition_not_mem {sep : Char} {l : List Char} (h : sep ∉ l) :
    pyPartition sep l = (l, false, []) := by
  simp [pyPartition, takeWhile_not_mem h, dropWhile_not_mem h]

theorem pyPartition_append {sep : Char} {X Y : List Char} (h : sep ∉ X) :
    pyPartition sep (X ++ sep :: Y) = (X, true, Y) := by
  have h1 : ∀ c ∈ X, (fun c => c != sep) c = true := by
    intro c hc
    simp only [bne_iff_ne, ne_eq]
    exact fun hcs => h (hcs ▸ hc)
  simp [pyPartition, List.takeWhile_append_of_pos h1,
    List.dropWhile_append_of_pos h1, takeWhile_not_mem h, dropWhile_not_mem h]

theorem pyPartition_fst_subset {sep : Char} {l : List Char} :
    ∀ c ∈ (pyPartition sep l).1, c ∈ l := by
  intro c hc
  simp only [pyPartition] at hc
  exact List.takeWhile_subset _ hc

theorem pyPartition_fst_not_mem (sep : Char) (l : List Char) :
    sep ∉ (pyPartition sep l).1 := by
  intro hmem
  simp only [pyPartition] at hmem
  have := List.mem_takeWhile_imp hmem
  simp at this

theorem natDigitsRev_ofRev :
    ∀ (fuel n : Nat), n ≤ fuel → ofRevDigits (natDigitsRev fuel n) = n := by
  intro fuel
  induction fuel with
  | zero => intro n h; interval_cases n; rfl
  | succ f ih =>
      intro n h
      by_cases hn : n = 0
      · subst hn; rfl
      · have hdiv : n / 10 ≤ f := by
          have := Nat.div_lt_self (Nat.pos_of_ne_zero hn) (by norm_num : 1 < 10)
          omega
        simp only [natDigitsRev, if_neg hn, ofRevDigits, ih (n / 10) hdiv]
        omega

theorem natDigitsRev_lt10 :
    ∀ (fuel n : Nat), ∀ d ∈ natDigitsRev fuel n, d < 10 := by
  intro fuel
  induction fuel with
  | zero => intro n d h; simp [natDigitsRev] at h
  | succ f ih =>
      intro n d h
      simp only [natDigitsRev] at h
      split at h
      · simp at h
      · rcases List.mem_cons.1 h with rfl | hmem
        · exact Nat.mod_lt _ (by norm_num)
        · exact ih _ _ hmem

theorem natDigitsRev_ne_nil {n : Nat} (h1 : 1 ≤ n) :
    natDigitsRev n n ≠ [] := by
  cases n with
  | zero => omega
  | succ m =>
      simp [natDigitsRev]

theorem digit_char_toNat {d : Nat} (h : d < 10) :
    (Char.ofNat (48 + d)).toNat = 48 + d :=
  char_toNat_ofNat (Or.inl (by omega))

theorem pyNatStr_digit_chars {n : Nat} :
    ∀ c ∈ pyNatStr n, 48 ≤ c.toNat ∧ c.toNat ≤ 57 := by
  intro c hc
  simp only [pyNatStr] at hc
  split at hc
  · rcases List.mem_singleton.1 hc with rfl
    decide
  · rcases List.mem_map.1 hc with ⟨d, hd, rfl⟩
    have hlt : d < 10 := natDigitsRev_lt10 _ _ _ (List.mem_reverse.1 hd)
    rw [digit_char_toNat hlt]
    omega

theorem pyDigitsVal_map_rev :
    ∀ (ds : List Nat), (∀ d ∈ ds, d < 10) →
      pyDigitsVal ((ds.reverse).map (fun d => Char.ofNat (48 + d))) =
        ofRevDigits ds := by
  intro ds
  induction ds with
  | nil => intro _; rfl
  | cons d ds' ih =>
      intro h
      have hd : d < 10 := h d (List.mem_cons_self d ds')
      have hds : ∀ x ∈ ds', x < 10 := fun x hx => h x (List.mem_cons_of_mem _ hx)
      simp only [List.reverse_cons, List.map_append, List.map_cons,
        List.map_nil, pyDigitsVal, List.foldl_append, List.foldl_cons,
        List.foldl_nil]
      simp only [pyDigitsVal] at ih
      rw [ih hds, digit_char_toNat hd, ofRevDigits]
      omega

theorem pyNatStr_ne_nil (n : Nat) : pyNatStr n ≠ [] := by
  simp only [pyNatStr]
  split
  · simp
  · rename_i hn
    have := natDigitsRev_ne_nil (n := n) (by omega)
    intro hcontra
    simp only [List.map_eq_nil_iff, List.reverse_eq_nil_iff] at hcontra
    exact this hcontra

theorem pyPortVal_pyNatStr (n : Nat) : pyPortVal (pyNatStr n) = some n := by
  have hall : (pyNatStr n).all isAsciiDigitChar = true := by
    rw [List.all_eq_true]
    intro c hc
    have := pyNatStr_digit_chars c hc
    simp only [isAsciiDigitChar, Bool.and_eq_true, decide_eq_true_eq]
    omega
  rw [pyPortVal, if_pos ⟨pyNatStr_ne_nil n, hall⟩]
  congr 1
  by_cases hn : n = 0
  · subst hn; rfl
  · simp only [pyNatStr, if_neg hn]
    rw [pyDigitsVal_map_rev _ (natDigitsRev_lt10 n n)]
    exact natDigitsRev_ofRev n n (Nat.le_refl n)

theorem utf8DecodeAux_step_emit {need acc lo hi b : Nat}
    (h : lo ≤ b ∧ b ≤ hi) (hneed : need ≤ 1) (rest : List (Nat ⊕ Char)) :
    utf8DecodeAux (some (need, acc, lo, hi)) (.inl b :: rest) =
      Char.ofNat (acc * 64 + (b - 0x80)) :: utf8DecodeAux none rest := by
  simp only [utf8DecodeAux]
  rw [if_pos h, if_pos hneed]

theorem utf8DecodeAux_step_more {need acc lo hi b : Nat}
    (h : lo ≤ b ∧ b ≤ hi) (hneed : ¬need ≤ 1) (rest : List (Nat ⊕ Char)) :
    utf8DecodeAux (some (need, acc, lo, hi)) (.inl b :: rest) =
      utf8DecodeAux (some (need - 1, acc * 64 + (b - 0x80), 0x80, 0xBF)) rest := by
  simp only [utf8DecodeAux]
  rw [if_pos h, if_neg hneed]

theorem utf8Lead_emit {b : Nat} (h : b < 0x80) :
    utf8Lead b = .emit (Char.ofNat b) := by
  simp only [utf8Lead]
  rw [if_pos h]

theorem utf8Lead_start2 {b : Nat} (h : 0xC2 ≤ b ∧ b ≤ 0xDF) :
    utf8Lead b = .start 1 (b - 0xC0) 0x80 0xBF := by
  simp only [utf8Lead]
  rw [if_neg (by omega), if_pos h]

theorem utf8Lead_start3 {b : Nat} (h : 0xE0 ≤ b ∧ b ≤ 0xEF) :
    utf8Lead b = .start 2 (b - 0xE0)
      (if b = 0xE0 then 0xA0 else 0x80) (if b = 0xED then 0x9F else 0xBF) := by
  simp only [utf8Lead]
  rw [if_neg (by omega), if_neg (by omega)]
  by_cases hE0 : b = 0xE0
  · subst hE0
    norm_num
  · rw [if_neg hE0, if_neg (fun hc => hE0 hc)]
    by_cases hED : b = 0xED
    · subst hED
      norm_num
    · rw [if_neg hED, if_pos (by omega), if_neg hED]

theorem utf8Lead_start4 {b : Nat} (h : 0xF0 ≤ b ∧ b ≤ 0xF4) :
    utf8Lead b = .start 3 (b - 0xF0)
      (if b = 0xF0 then 0x90 else 0x80) (if b = 0xF4 then 0x8F else 0xBF) := by
  simp only [utf8Lead]
  rw [if_neg (by omega), if_neg (by omega), if_neg (by omega),
    if_neg (by omega), if_neg (by omega)]
  by_cases hF0 : b = 0xF0
  · subst hF0
    norm_num
  · rw [if_neg hF0, if_neg (fun hc => hF0 hc)]
    by_cases hF4 : b = 0xF4
    · subst hF4
      norm_num
    · rw [if_neg hF4, if_pos (by omega), if_neg hF4]

theorem utf8DecodeAux_lead_emit {b : Nat} {c' : Char}
    (h : utf8Lead b = .emit c') (rest : List (Nat ⊕ Char)) :
    utf8DecodeAux none (.inl b :: rest) = c' :: utf8DecodeAux none rest := by
  simp only [utf8DecodeAux, h]

theorem utf8DecodeAux_lead_start {b n a lo hi : Nat}
    (h : utf8Lead b = .start n a lo hi) (rest : List (Nat ⊕ Char)) :
    utf8DecodeAux none (.inl b :: rest) =
      utf8DecodeAux (some (n, a, lo, hi)) rest := by
  simp only [utf8DecodeAux, h]

theorem utf8DecodeAux_encodeChar (c : Char) (rest : List (Nat ⊕ Char)) :
    utf8DecodeAux none ((utf8EncodeChar c).map Sum.inl ++ rest) =
      c :: utf8DecodeAux none rest := by
  have hval : c.toNat < 0xd800 ∨ (0xdfff < c.toNat ∧ c.toNat < 0x110000) :=
    c.valid
  set n := c.toNat with hn
  have hofNat : Char.ofNat n = c := Char.ofNat_toNat c
  by_cases h1 : n < 0x80
  · rw [show utf8EncodeChar c = [n] by rw [utf8EncodeChar, ← hn, if_pos h1]]
    rw [List.map_cons, List.map_nil, List.cons_append, List.nil_append,
      utf8DecodeAux_lead_emit (utf8Lead_emit h1), hofNat]
  · by_cases h2 : n < 0x800
    · rw [show utf8EncodeChar c = [0xC0 + n / 64, 0x80 + n % 64] by
        rw [utf8EncodeChar, ← hn, if_neg h1, if_pos h2]]
      rw [List.map_cons, List.map_cons, List.map_nil, List.cons_append,
        List.cons_append, List.nil_append,
        utf8DecodeAux_lead_start (utf8Lead_start2 (by omega)),
        utf8DecodeAux_step_emit (by omega) (by omega)]
      congr 1
      rw [← hofNat]
      congr 1
      omega
    · by_cases h3 : n < 0x10000
      · rw [show utf8EncodeChar c =
            [0xE0 + n / 4096, 0x80 + n / 64 % 64, 0x80 + n % 64] by
          rw [utf8EncodeChar, ← hn, if_neg h1, if_neg h2, if_pos h3]]
        have hsur : ¬(0xd800 ≤ n ∧ n ≤ 0xdfff) := by omega
        rw [List.map_cons, List.map_cons, List.map_cons, List.map_nil,
          List.cons_append, List.cons_append, List.cons_append,
          List.nil_append,
          utf8DecodeAux_lead_start (utf8Lead_start3 (by omega))]
        rw [utf8DecodeAux_step_more (by constructor <;> [split <;> omega;
          split <;> omega]) (by omega)]
        rw [utf8DecodeAux_step_emit (by omega) (by omega)]
        congr 1
        rw [← hofNat]
        congr 1
        omega
      · have h4 : n < 0x110000 := by
          rcases hval with h | h
          · omega
          · exact h.2
        rw [show utf8EncodeChar c =
            [0xF0 + n / 262144, 0x80 + n / 4096 % 64, 0x80 + n / 64 % 64,
             0x80 + n % 64] by
          rw [utf8EncodeChar, ← hn, if_neg h1, if_neg h2, if_neg h3]]
        rw [List.map_cons, List.map_cons, List.map_cons, List.map_cons,
          List.map_nil, List.cons_append, List.cons_append, List.cons_append,
          List.cons_append, List.nil_append,
          utf8DecodeAux_lead_start (utf8Lead_start4 (by omega))]
        rw [utf8DecodeAux_step_more (by constructor <;> [split <;> omega;
          split <;> omega]) (by omega)]
        rw [utf8DecodeAux_step_more (by omega) (by omega)]
        rw [utf8DecodeAux_step_emit (by omega) (by omega)]
        congr 1
        rw [← hofNat]
        congr 1
        omega

theorem utf8DecodeAux_encode_append (l : List Char) (rest : List (Nat ⊕ Char)) :
    utf8DecodeAux none ((utf8Encode l).map Sum.inl ++ rest) =
      l ++ utf8DecodeAux none rest := by
  induction l with
  | nil => simp [utf8Encode]
  | cons c cs ih =>
      have : utf8Encode (c :: cs) = utf8EncodeChar c ++ utf8Encode cs := by
        simp [utf8Encode]
      rw [this, List.map_append, List.append_assoc,
        utf8DecodeAux_encodeChar, ih, List.cons_append]

/-- `bytes.decode("utf-8", "replace")` inverts `str.encode("utf-8")`. -/
theorem utf8DecodeReplace_encode (l : List Char) :
    utf8DecodeReplace ((utf8Encode l).map Sum.inl) = l := by
  have := utf8DecodeAux_encode_append l []
  simpa [utf8DecodeReplace,
    show utf8DecodeAux none [] = ([] : List Char) from rfl] using this

theorem hexDigitVal_hexUpper {x : Nat} (h : x < 16) :
    hexDigitVal (hexUpper x) = some x := by
  simp only [hexUpper, hexDigitVal]
  by_cases h10 : x < 10
  · rw [if_pos h10, char_toNat_ofNat (Or.inl (by omega)),
      if_pos (by omega)]
    congr 1
    omega
  · rw [if_neg h10, char_toNat_ofNat (Or.inl (by omega)),
      if_neg (by omega), if_pos (by omega)]
    congr 1
    omega

theorem hexUpper_toNat {x : Nat} (h : x < 16) :
    (hexUpper x).toNat = if x < 10 then 48 + x else 55 + x := by
  simp only [hexUpper]
  split
  · exact char_toNat_ofNat (Or.inl (by omega))
  · exact char_toNat_ofNat (Or.inl (by omega))

theorem percentDecodeMixed_cons_nonpct {c : Char} {rest : List Char}
    (h : c ≠ '%') :
    percentDecodeMixed (c :: rest) =
      (if isAsciiChar c then .inl c.toNat else .inr c) ::
        percentDecodeMixed rest := by
  simp only [percentDecodeMixed, pctDecAux, if_neg h, pctStep]

theorem percentDecodeMixed_escape {c1 c2 : Char} {v1 v2 : Nat}
    (h1 : hexDigitVal c1 = some v1) (h2 : hexDigitVal c2 = some v2)
    (rest : List Char) :
    percentDecodeMixed ('%' :: c1 :: c2 :: rest) =
      .inl (16 * v1 + v2) :: percentDecodeMixed rest := by
  simp only [percentDecodeMixed, pctDecAux, h1, h2, reduceIte]

theorem utf8EncodeChar_lt256 (c : Char) : ∀ b ∈ utf8EncodeChar c, b < 256 := by
  intro b hb
  have hval : c.toNat < 0xd800 ∨ (0xdfff < c.toNat ∧ c.toNat < 0x110000) :=
    c.valid
  have hlt : c.toNat < 0x110000 := by rcases hval with h | h; omega; exact h.2
  simp only [utf8EncodeChar] at hb
  split at hb <;> [skip; split at hb <;> [skip; split at hb]] <;>
    simp only [List.mem_cons, List.not_mem_nil, or_false] at hb <;>
    omega

theorem utf8Encode_lt256 (l : List Char) : ∀ b ∈ utf8Encode l, b < 256 := by
  intro b hb
  simp only [utf8Encode, List.mem_flatten, List.mem_map] at hb
  obtain ⟨bs, ⟨c, _, rfl⟩, hbbs⟩ := hb
  exact utf8EncodeChar_lt256 c b hbbs

theorem isAlwaysSafeByte_facts {b : Nat} (h : isAlwaysSafeByte b = true) :
    b < 128 ∧ b ≠ 37 ∧ b ≠ 43 ∧ b ≠ 32 := by
  simp only [isAlwaysSafeByte, decide_eq_true_eq] at h
  omega

/-- The `+ → space` substitution of `parse_qsl` distributes over a
`quote_plus` encoding: no quoted chunk other than the space-`+`
contains `+`. -/
theorem pyReplaceChar_pyQuotePlus (k : List Char) :
    pyReplaceChar '+' ' ' (pyQuotePlus k) =
      ((utf8Encode k).map (fun b =>
        if b = 32 then [' ']
        else if isAlwaysSafeByte b then [Char.ofNat b]
        else ['%', hexUpper (b / 16), hexUpper (b % 16)])).flatten := by
  simp only [pyQuotePlus, pyReplaceChar, List.map_flatten, List.map_map]
  congr 1
  apply List.map_congr_left
  intro b hb
  have hb256 := utf8Encode_lt256 k b hb
  simp only [Function.comp]
  by_cases h32 : b = 32
  · subst h32
    norm_num
  · rw [if_neg h32, if_neg h32]
    by_cases hsafe : isAlwaysSafeByte b = true
    · rw [if_pos hsafe]
      obtain ⟨hlt, h37, h43, _⟩ := isAlwaysSafeByte_facts hsafe
      simp only [List.map_cons, List.map_nil]
      rw [if_neg ?hne]
      case hne =>
        intro hc
        have := char_toNat_ofNat (n := b) (Or.inl (by omega))
        rw [hc] at this
        simp at this
        omega
    · rw [if_neg hsafe]
      simp only [List.map_cons, List.map_nil]
      have hq : ('%' : Char) ≠ '+' := by decide
      rw [if_neg hq]
      have hhex : ∀ x : Nat, x < 16 → hexUpper x ≠ '+' := by
        intro x hx hc
        have := hexUpper_toNat hx
        rw [hc] at this
        revert this
        split <;> (intro h; simp at h; omega)
      rw [if_neg (hhex _ (by omega)), if_neg (hhex _ (by omega))]

theorem percentDecodeMixed_quoted (bytes : List Nat)
    (hb : ∀ b ∈ bytes, b < 256) :
    percentDecodeMixed ((bytes.map (fun b =>
        if b = 32 then [' ']
        else if isAlwaysSafeByte b then [Char.ofNat b]
        else ['%', hexUpper (b / 16), hexUpper (b % 16)])).flatten) =
      bytes.map Sum.inl := by
  induction bytes with
  | nil => rfl
  | cons b bs ih =>
      have hb256 : b < 256 := hb b (List.mem_cons_self b bs)
      have hbs : ∀ x ∈ bs, x < 256 := fun x hx => hb x (List.mem_cons_of_mem _ hx)
      simp only [List.map_cons, List.flatten_cons]
      by_cases h32 : b = 32
      · subst h32
        rw [if_pos rfl]
        rw [List.cons_append, List.nil_append,
          percentDecodeMixed_cons_nonpct (by decide), ih hbs]
        rfl
      · rw [if_neg h32]
        by_cases hsafe : isAlwaysSafeByte b = true
        · rw [if_pos hsafe]
          obtain ⟨hlt, h37, _, _⟩ := isAlwaysSafeByte_facts hsafe
          have htn : (Char.ofNat b).toNat = b :=
            char_toNat_ofNat (Or.inl (by omega))
          rw [List.cons_append, List.nil_append,
            percentDecodeMixed_cons_nonpct ?hne, ih hbs]
          case hne =>
            intro hc
            rw [hc] at htn
            simp at htn
            omega
          rw [if_pos (by simp [isAsciiChar, htn]; omega), htn]
        · rw [if_neg hsafe]
          simp only [List.cons_append, List.nil_append]
          rw [percentDecodeMixed_escape
            (hexDigitVal_hexUpper (by omega)) (hexDigitVal_hexUpper (by omega)),
            ih hbs]
          congr 2
          omega

/-- `unquote` after the `+ → space` step inverts `quote_plus`. -/
theorem pyUnquote_pyQuotePlus (k : List Char) :
    pyUnquote (pyReplaceChar '+' ' ' (pyQuotePlus k)) = k := by
  rw [pyUnquote, pyReplaceChar_pyQuotePlus,
    percentDecodeMixed_quoted _ (utf8Encode_lt256 k),
    utf8DecodeReplace_encode]

/-- Alphabet of `quote_plus` output: printable ASCII, and none of
tab, LF, CR, `#`, `&`, `;`, `=`, `?` (those are all percent-escaped). -/
theorem pyQuotePlus_mem {k : List Char} {c : Char} (hc : c ∈ pyQuotePlus k) :
    c.toNat ≤ 126 ∧ c.toNat ≠ 9 ∧ c.toNat ≠ 10 ∧ c.toNat ≠ 13 ∧
      c.toNat ≠ 35 ∧ c.toNat ≠ 38 ∧ c.toNat ≠ 59 ∧ c.toNat ≠ 61 ∧
      c.toNat ≠ 63 := by
  simp only [pyQuotePlus, List.mem_flatten, List.mem_map] at hc
  obtain ⟨piece, ⟨b, hb, rfl⟩, hcp⟩ := hc
  have hb256 := utf8Encode_lt256 _ b hb
  by_cases h32 : b = 32
  · subst h32
    rw [if_pos rfl] at hcp
    rcases List.mem_singleton.1 hcp with rfl
    decide
  · rw [if_neg h32] at hcp
    by_cases hsafe : isAlwaysSafeByte b = true
    · rw [if_pos hsafe] at hcp
      rcases List.mem_singleton.1 hcp with rfl
      have hfacts : b < 128 := (isAlwaysSafeByte_facts hsafe).1
      have htn : (Char.ofNat b).toNat = b :=
        char_toNat_ofNat (Or.inl (by omega))
      rw [htn]
      simp only [isAlwaysSafeByte, decide_eq_true_eq] at hsafe
      omega
    · rw [if_neg hsafe] at hcp
      have hhex : ∀ x : Nat, x < 16 →
          (hexUpper x).toNat ≤ 126 ∧ (hexUpper x).toNat ≠ 9 ∧
          (hexUpper x).toNat ≠ 10 ∧ (hexUpper x).toNat ≠ 13 ∧
          (hexUpper x).toNat ≠ 35 ∧ (hexUpper x).toNat ≠ 38 ∧
          (hexUpper x).toNat ≠ 59 ∧ (hexUpper x).toNat ≠ 61 ∧
          (hexUpper x).toNat ≠ 63 := by
        intro x hx
        rw [hexUpper_toNat hx]
        split <;> omega
      rcases List.mem_cons.1 hcp with rfl | hcp
      · decide
      · rcases List.mem_cons.1 hcp with rfl | hcp
        · exact hhex _ (by omega)
        · rcases List.mem_cons.1 hcp with rfl | hcp
          · exact hhex _ (by omega)
          · simp at hcp

/-- Alphabet of an `urlencode`d pair list: printable ASCII, and none of
tab, LF, CR, `#`, `?`. -/
theorem urlencodePairs_mem {ps : List (List Char × List Char)} {c : Char}
    (hc : c ∈ urlencodePairs ps) :
    c.toNat ≤ 126 ∧ c.toNat ≠ 9 ∧ c.toNat ≠ 10 ∧ c.toNat ≠ 13 ∧
      c.toNat ≠ 35 ∧ c.toNat ≠ 63 := by
  induction ps with
  | nil => simp [urlencodePairs] at hc
  | cons p rest ih =>
      obtain ⟨k, v⟩ := p
      cases rest with
      | nil =>
          simp only [urlencodePairs, List.mem_append, List.mem_cons] at hc
          rcases hc with hc | hc | hc
          · have := pyQuotePlus_mem hc
            tauto
          · subst hc; decide
          · have := pyQuotePlus_mem hc
            tauto
      | cons q rest' =>
          have hunf : urlencodePairs ((k, v) :: q :: rest') =
              pyQuotePlus k ++ '=' ::
                (pyQuotePlus v ++ '&' :: urlencodePairs (q :: rest')) := by
            simp only [urlencodePairs, List.cons_append, List.append_assoc]
          rw [hunf] at hc
          simp only [List.mem_append, List.mem_cons] at hc
          rcases hc with hc | hc | hc | hc | hc
          · have := pyQuotePlus_mem hc
            tauto
          · subst hc; decide
          · have := pyQuotePlus_mem hc
            tauto
          · subst hc; decide
          · exact ih hc

theorem pySplitChar_not_mem {sep : Char} {X : List Char} (h : sep ∉ X) :
    pySplitChar sep X = [X] := by
  induction X with
  | nil => rfl
  | cons c rest ih =>
      simp only [List.mem_cons, not_or] at h
      rw [pySplitChar, if_neg (fun hc => h.1 hc.symm), ih h.2]

theorem pySplitChar_append {sep : Char} {X Y : List Char} (h : sep ∉ X) :
    pySplitChar sep (X ++ sep :: Y) = X :: pySplitChar sep Y := by
  induction X with
  | nil =>
      simp only [List.nil_append]
      rw [pySplitChar, if_pos rfl]
  | cons c rest ih =>
      simp only [List.mem_cons, not_or] at h
      rw [List.cons_append, pySplitChar, if_neg (fun hc => h.1 hc.symm),
        ih h.2]

/-- The `=`-joined chunk of one encoded pair, and the single-pair
reading of `parse_qsl` on it. -/
theorem parse_qsl_chunk (k v : List Char) :
    (fun nv : List Char =>
      if nv = [] then none
      else
        let p := pyPartition '=' nv
        some (pyUnquote (pyReplaceChar '+' ' ' p.1),
              pyUnquote (pyReplaceChar '+' ' ' p.2.2)))
      (pyQuotePlus k ++ '=' :: pyQuotePlus v) = some (k, v) := by
  have hne : pyQuotePlus k ++ '=' :: pyQuotePlus v ≠ [] := by
    simp
  have heq : '=' ∉ pyQuotePlus k := by
    intro hmem
    have := (pyQuotePlus_mem hmem).2.2.2.2.2.2.2.1
    simp at this
  simp only [if_neg hne, pyPartition_append heq]
  rw [pyUnquote_pyQuotePlus, pyUnquote_pyQuotePlus]

/-- `parse_qsl(urlencode(ps), keep_blank_values=True)` recovers `ps`. -/
theorem parse_qsl_urlencode (ps : List (List Char × List Char)) :
    parse_qsl_kb (urlencodePairs ps) = ps := by
  induction ps with
  | nil => rfl
  | cons p rest ih =>
      obtain ⟨k, v⟩ := p
      have hchunk_ne : pyQuotePlus k ++ '=' :: pyQuotePlus v ≠ [] := by simp
      have hamp : '&' ∉ pyQuotePlus k ++ '=' :: pyQuotePlus v := by
        intro hmem
        simp only [List.mem_append, List.mem_cons] at hmem
        rcases hmem with h | h | h
        · have := (pyQuotePlus_mem h).2.2.2.2.2.1
          simp at this
        · exact absurd h.symm (by decide)
        · have := (pyQuotePlus_mem h).2.2.2.2.2.1
          simp at this
      cases rest with
      | nil =>
          show parse_qsl_kb (pyQuotePlus k ++ '=' :: pyQuotePlus v) = [(k, v)]
          rw [parse_qsl_kb, if_neg hchunk_ne, pySplitChar_not_mem hamp]
          simp only [List.filterMap_cons, List.filterMap_nil]
          have := parse_qsl_chunk k v
          simp only at this
          rw [this]
      | cons q rest' =>
          have hunf : urlencodePairs ((k, v) :: q :: rest') =
              (pyQuotePlus k ++ '=' :: pyQuotePlus v) ++
                '&' :: urlencodePairs (q :: rest') := by
            simp only [urlencodePairs, List.cons_append, List.append_assoc]
          rw [hunf, parse_qsl_kb, if_neg (by simp), pySplitChar_append hamp]
          have hrest_ne : urlencodePairs (q :: rest') ≠ [] := by
            obtain ⟨k2, v2⟩ := q
            cases rest' <;> simp [urlencodePairs]
          rw [parse_qsl_kb, if_neg hrest_ne] at ih
          simp only [List.filterMap_cons]
          have := parse_qsl_chunk k v
          simp only at this
          rw [this, ih]

theorem pyStrLt_irrefl : ∀ a : List Char, pyStrLt a a = false := by
  intro a
  induction a with
  | nil => rfl
  | cons c rest ih => simp [pyStrLt, ih]

theorem pyStrLt_asymm :
    ∀ {a b : List Char}, pyStrLt a b = true → pyStrLt b a = false := by
  intro a
  induction a with
  | nil =>
      intro b hb
      cases b with
      | nil => simpa [pyStrLt] using hb
      | cons c rest => rfl
  | cons c rest ih =>
      intro b hb
      cases b with
      | nil => simp [pyStrLt] at hb
      | cons c' rest' =>
          simp only [pyStrLt] at hb ⊢
          split at hb
          · rename_i hlt
            rw [if_neg (by omega), if_pos (by omega)]
          · split at hb
            · simp at hb
            · rename_i h1 h2
              rw [if_neg h2, if_neg h1]
              exact ih hb

theorem pyStrLt_connex :
    ∀ {a b : List Char}, pyStrLt a b = false → pyStrLt b a = false → a = b := by
  intro a
  induction a with
  | nil =>
      intro b h1 _
      cases b with
      | nil => rfl
      | cons c rest => simp [pyStrLt] at h1
  | cons c rest ih =>
      intro b h1 h2
      cases b with
      | nil => simp [pyStrLt] at h2
      | cons c' rest' =>
          simp only [pyStrLt] at h1 h2
          split at h1
          · simp at h1
          · rename_i hge
            split at h1
            · rename_i hgt
              rw [if_pos hgt] at h2
              simp at h2
            · rename_i hgt
              have hc : c = c' := by
                have h3 : c.toNat = c'.toNat := by omega
                have hv : c.val = c'.val := by
                  apply UInt32.eq_of_toBitVec_eq
                  have hcn : c.val.toNat = c'.val.toNat := h3
                  exact BitVec.eq_of_toNat_eq hcn
                exact Char.eq_of_val_eq hv
              subst hc
              rw [if_neg hge, if_neg hgt] at h2
              rw [ih h1 h2]

theorem pyStrLt_trans :
    ∀ {a b c : List Char}, pyStrLt a b = true → pyStrLt b c = true →
      pyStrLt a c = true := by
  intro a
  induction a with
  | nil =>
      intro b c hab hbc
      cases c with
      | nil =>
          cases b with
          | nil => simpa [pyStrLt] using hab
          | cons cb rb => simp [pyStrLt] at hbc
      | cons cc rc => rfl
  | cons ca ra ih =>
      intro b c hab hbc
      cases b with
      | nil => simp [pyStrLt] at hab
      | cons cb rb =>
          cases c with
          | nil => simp [pyStrLt] at hbc
          | cons cc rc =>
              simp only [pyStrLt] at hab hbc ⊢
              split at hab
              · rename_i h1
                split at hbc
                · rename_i h2
                  rw [if_pos (by omega)]
                · split at hbc
                  · simp at hbc
                  · rename_i h2 h3
                    have : cb.toNat = cc.toNat := by omega
                    rw [if_pos (by omega)]
              · split at hab
                · simp at hab
                · rename_i h1 h2
                  have hca : ca.toNat = cb.toNat := by omega
                  split at hbc
                  · rename_i h3
                    rw [if_pos (by omega)]
                  · split at hbc
                    · simp at hbc
                    · rename_i h3 h4
                      rw [if_neg (by omega), if_neg (by omega)]
                      exact ih hab hbc

theorem mem_insertPairSorted {x y : List Char × List Char}
    {l : List (List Char × List Char)} :
    y ∈ insertPairSorted x l ↔ y = x ∨ y ∈ l := by
  induction l with
  | nil => simp [insertPairSorted]
  | cons z zs ih =>
      simp only [insertPairSorted]
      split
      · simp [List.mem_cons]
      · simp only [List.mem_cons, ih]
        tauto

theorem insertPairSorted_pairwise {x : List Char × List Char}
    {l : List (List Char × List Char)}
    (hl : l.Pairwise (fun a b => pyStrLt a.1 b.1 = true))
    (hx : ∀ y ∈ l, y.1 ≠ x.1) :
    (insertPairSorted x l).Pairwise (fun a b => pyStrLt a.1 b.1 = true) := by
  induction l with
  | nil => simp [insertPairSorted]
  | cons z zs ih =>
      simp only [insertPairSorted]
      split
      · rename_i hlt
        refine List.Pairwise.cons ?_ hl
        intro y hy
        rcases List.mem_cons.1 hy with rfl | hy
        · exact hlt
        · exact pyStrLt_trans hlt ((List.pairwise_cons.1 hl).1 y hy)
      · rename_i hnlt
        have hxz : pyStrLt x.1 z.1 = false := by
          rcases Bool.eq_false_or_eq_true (pyStrLt x.1 z.1) with h | h
          · exact absurd h hnlt
          · exact h
        have hzx : pyStrLt z.1 x.1 = true := by
          have hne : z.1 ≠ x.1 := hx z (List.mem_cons_self z zs)
          rcases Bool.eq_false_or_eq_true (pyStrLt z.1 x.1) with h | h
          · exact h
          · exact absurd (pyStrLt_connex hxz h).symm hne
        refine List.Pairwise.cons ?_ (ih (List.pairwise_cons.1 hl).2
          (fun y hy => hx y (List.mem_cons_of_mem _ hy)))
        intro y hy
        rcases mem_insertPairSorted.1 hy with rfl | hy
        · exact hzx
        · exact (List.pairwise_cons.1 hl).1 y hy

theorem mem_foldl_insertPairSorted {l acc : List (List Char × List Char)}
    {y : List Char × List Char} :
    y ∈ l.foldl (fun a x => insertPairSorted x a) acc ↔ y ∈ acc ∨ y ∈ l := by
  induction l generalizing acc with
  | nil => simp
  | cons x xs ih =>
      simp only [List.foldl_cons, ih, mem_insertPairSorted, List.mem_cons]
      tauto

theorem pySortPairs_pairwise {l : List (List Char × List Char)}
    (hd : l.Pairwise (fun a b => a.1 ≠ b.1)) :
    (pySortPairs l).Pairwise (fun a b => pyStrLt a.1 b.1 = true) := by
  suffices h : ∀ (acc : List (List Char × List Char)),
      acc.Pairwise (fun a b => pyStrLt a.1 b.1 = true) →
      (∀ y ∈ acc, ∀ p ∈ l, y.1 ≠ p.1) →
      (l.foldl (fun a x => insertPairSorted x a) acc).Pairwise
        (fun a b => pyStrLt a.1 b.1 = true) by
    exact h [] List.Pairwise.nil (by simp)
  induction l with
  | nil => intro acc hacc _; exact hacc
  | cons x xs ih =>
      intro acc hacc hdisj
      simp only [List.foldl_cons]
      refine ih (List.pairwise_cons.1 hd).2 (insertPairSorted x acc)
        (insertPairSorted_pairwise hacc
          (fun y hy => hdisj y hy x (List.mem_cons_self x xs))) ?_
      intro y hy p hp
      rcases mem_insertPairSorted.1 hy with rfl | hy
      · exact (List.pairwise_cons.1 hd).1 p hp
      · exact hdisj y hy p (List.mem_cons_of_mem _ hp)

theorem insertPairSorted_append_last {x : List Char × List Char}
    {l : List (List Char × List Char)}
    (h : ∀ y ∈ l, pyStrLt y.1 x.1 = true) :
    insertPairSorted x l = l ++ [x] := by
  induction l with
  | nil => rfl
  | cons z zs ih =>
      have hz : pyStrLt z.1 x.1 = true := h z (List.mem_cons_self z zs)
      simp only [insertPairSorted]
      rw [if_neg (by simp [pyStrLt_asymm hz]), ih
        (fun y hy => h y (List.mem_cons_of_mem _ hy))]
      rfl

theorem pySortPairs_of_sorted {l : List (List Char × List Char)}
    (hs : l.Pairwise (fun a b => pyStrLt a.1 b.1 = true)) :
    pySortPairs l = l := by
  suffices h : ∀ (acc : List (List Char × List Char)),
      (∀ y ∈ acc, ∀ p ∈ l, pyStrLt y.1 p.1 = true) →
      l.foldl (fun a x => insertPairSorted x a) acc = acc ++ l by
    simpa using h [] (by simp)
  induction l with
  | nil => intro acc _; simp
  | cons x xs ih =>
      intro acc hacc
      simp only [List.foldl_cons]
      rw [insertPairSorted_append_last
        (fun y hy => hacc y hy x (List.mem_cons_self x xs))]
      have hstep := ih (List.pairwise_cons.1 hs).2 (acc ++ [x]) ?harg
      case harg =>
        intro y hy p hp
        rcases List.mem_append.1 hy with hy | hy
        · exact hacc y hy p (List.mem_cons_of_mem _ hp)
        · rcases List.mem_singleton.1 hy with rfl
          exact (List.pairwise_cons.1 hs).1 p hp
      rw [hstep]
      simp

theorem qsInsert_keys (k : List Char) (v : List Char)
    (m : List (List Char × List (List Char))) :
    (qsInsert k v m).map Prod.fst =
      if k ∈ m.map Prod.fst then m.map Prod.fst
      else m.map Prod.fst ++ [k] := by
  induction m with
  | nil => simp [qsInsert]
  | cons e rest ih =>
      obtain ⟨k', vs⟩ := e
      by_cases hk : k' = k
      · subst hk
        simp [qsInsert]
      · simp only [qsInsert, if_neg hk, List.map_cons, ih]
        by_cases hmem : k ∈ rest.map Prod.fst
        · rw [if_pos hmem, if_pos (List.mem_cons_of_mem _ hmem)]
        · rw [if_neg hmem, if_neg ?hn, List.cons_append]
          case hn =>
            intro hc
            rcases List.mem_cons.1 hc with hc | hc
            · exact hk hc.symm
            · exact hmem hc

theorem qsInsert_keys_nodup {k : List Char} {v : List Char}
    {m : List (List Char × List (List Char))}
    (h : (m.map Prod.fst).Nodup) : ((qsInsert k v m).map Prod.fst).Nodup := by
  rw [qsInsert_keys]
  split
  · exact h
  · rename_i hnmem
    simp only [List.Nodup] at h ⊢
    rw [List.pairwise_append]
    refine ⟨h, by simp, ?_⟩
    intro a ha b hb
    rcases List.mem_singleton.1 hb with rfl
    intro hc
    exact hnmem (hc ▸ ha)

theorem parse_qs_kb_keys_nodup (q : List Char) :
    ((parse_qs_kb q).map Prod.fst).Nodup := by
  rw [parse_qs_kb]
  generalize parse_qsl_kb q = ps
  suffices h : ∀ (acc : List (List Char × List (List Char))),
      (acc.map Prod.fst).Nodup →
      ((ps.foldl (fun m p => qsInsert p.1 p.2 m) acc).map Prod.fst).Nodup by
    exact h [] (by simp)
  induction ps with
  | nil => intro acc hacc; exact hacc
  | cons p rest ih =>
      intro acc hacc
      simp only [List.foldl_cons]
      exact ih _ (qsInsert_keys_nodup hacc)

theorem qsInsert_fresh {k : List Char} {v : List Char}
    {m : List (List Char × List (List Char))}
    (h : ∀ e ∈ m, e.1 ≠ k) : qsInsert k v m = m ++ [(k, [v])] := by
  induction m with
  | nil => rfl
  | cons e rest ih =>
      obtain ⟨k', vs⟩ := e
      have hne : k' ≠ k := h (k', vs) (List.mem_cons_self _ _)
      rw [qsInsert, if_neg hne, ih (fun e he => h e (List.mem_cons_of_mem _ he)),
        List.cons_append]

theorem foldl_qsInsert_of_distinct :
    ∀ (ps : List (List Char × List Char))
      (acc : List (List Char × List (List Char))),
      ps.Pairwise (fun a b => a.1 ≠ b.1) →
      (∀ e ∈ acc, ∀ p ∈ ps, e.1 ≠ p.1) →
      ps.foldl (fun m p => qsInsert p.1 p.2 m) acc =
        acc ++ ps.map (fun p => (p.1, [p.2])) := by
  intro ps
  induction ps with
  | nil => intro acc _ _; simp
  | cons p rest ih =>
      intro acc hd hdisj
      simp only [List.foldl_cons]
      rw [qsInsert_fresh (fun e he => hdisj e he p (List.mem_cons_self p rest))]
      rw [ih _ (List.pairwise_cons.1 hd).2 ?_]
      · simp
      · intro e he q hq
        rcases List.mem_append.1 he with he | he
        · exact hdisj e he q (List.mem_cons_of_mem _ hq)
        · rcases List.mem_singleton.1 he with rfl
          exact (List.pairwise_cons.1 hd).1 q hq

theorem parse_qs_urlencode {ps : List (List Char × List Char)}
    (hd : ps.Pairwise (fun a b => a.1 ≠ b.1)) :
    parse_qs_kb (urlencodePairs ps) = ps.map (fun p => (p.1, [p.2])) := by
  rw [parse_qs_kb, parse_qsl_urlencode]
  simpa using foldl_qsInsert_of_distinct ps [] hd (by simp)

theorem strictSorted_key_ne {ps : List (List Char × List Char)}
    (hs : StrictSortedPairs ps) : ps.Pairwise (fun a b => a.1 ≠ b.1) := by
  refine hs.imp ?_
  intro a b hlt heq
  rw [heq] at hlt
  rw [pyStrLt_irrefl] at hlt
  exact Bool.false_ne_true hlt

/-- Re-normalizing a normalized query is the identity. -/
theorem normQuery_fixed {query : List Char} (h : QueryOk query) :
    normQuery query = query := by
  rcases h with rfl | ⟨ps, hne, hs, rfl⟩
  · rfl
  · have hd := strictSorted_key_ne hs
    rw [normQuery, parse_qs_urlencode hd]
    rw [if_pos (by simpa using hne)]
    have hfv : (ps.map (fun p => (p.1, [p.2]))).map
        (fun p => (p.1, p.2.headD [])) = ps := by
      rw [List.map_map]
      rw [show ((fun p : List Char × List (List Char) => (p.1, p.2.headD [])) ∘
            (fun p : List Char × List Char => (p.1, [p.2]))) = id from
          funext (fun p => rfl)]
      exact List.map_id ps
    rw [hfv, pySortPairs_of_sorted hs]

/-- `normQuery` always produces a normalized query. -/
theorem normQuery_QueryOk (q : List Char) : QueryOk (normQuery q) := by
  rw [normQuery]
  split
  · rename_i hne
    right
    refine ⟨pySortPairs ((parse_qs_kb q).map (fun p => (p.1, p.2.headD []))),
      ?_, ?_, rfl⟩
    · obtain ⟨e, he⟩ := List.exists_mem_of_ne_nil _ hne
      have hefv : (e.1, e.2.headD []) ∈
          (parse_qs_kb q).map (fun p => (p.1, p.2.headD [])) :=
        List.mem_map.2 ⟨e, he, rfl⟩
      have : (e.1, e.2.headD []) ∈ pySortPairs ((parse_qs_kb q).map
          (fun p => (p.1, p.2.headD []))) := by
        rw [pySortPairs]
        exact mem_foldl_insertPairSorted.2 (Or.inr hefv)
      exact List.ne_nil_of_mem this
    · apply pySortPairs_pairwise
      have hnodup := parse_qs_kb_keys_nodup q
      have : ((parse_qs_kb q).map (fun p => (p.1, p.2.headD []))).map
          Prod.fst = (parse_qs_kb q).map Prod.fst := by
        rw [List.map_map]
        rfl
      rw [List.Nodup, ← this, List.pairwise_map] at hnodup
      exact hnodup
  · left
    rfl

theorem rstripSlashes_append (l : List Char) :
    ∃ t, rstripSlashes l ++ t = l := by
  obtain ⟨t, ht⟩ := List.dropWhile_suffix (l := l.reverse)
    (fun c : Char => c == '/')
  exact ⟨t.reverse, by
    rw [rstripSlashes, ← List.reverse_append, ht, List.reverse_reverse]⟩

theorem rstripSlashes_getLast (l : List Char) :
    rstripSlashes l = [] ∨ (rstripSlashes l).getLast? ≠ some '/' := by
  by_cases hnil : rstripSlashes l = []
  · exact Or.inl hnil
  · right
    rw [rstripSlashes, List.getLast?_reverse]
    have := List.head?_dropWhile_not (fun c : Char => c == '/') l.reverse
    intro hc
    rw [hc] at this
    simp at this

/-- Re-normalizing a normalized path is the identity. -/
theorem normPath_fixed {p : List Char} (h : PathOk p) : normPath p = p := by
  obtain ⟨hh, _, hl⟩ := h
  have hne : p ≠ [] := by
    intro hc
    rw [hc] at hh
    simp at hh
  rcases hl with rfl | hl
  · rfl
  · rw [normPath,
      if_neg (show ¬(p ≠ ['/'] ∧ p.getLast? = some '/') from
        fun hcond => hl hcond.2),
      if_neg hne]

/-- `normPath` of any `urlsplit` path (empty or `/`-headed, free of the
separator characters) is a normalized path. -/
theorem normPath_PathOk {p : List Char}
    (hh : p = [] ∨ p.head? = some '/')
    (hc : ∀ c ∈ p, c ∉ (['?', '#', ';', '\t', '\r', '\n'] : List Char)) :
    PathOk (normPath p) := by
  have hroot : PathOk ['/'] := by
    refine ⟨rfl, ?_, Or.inl rfl⟩
    intro c hcm
    rcases List.mem_singleton.1 hcm with rfl
    decide
  rw [normPath]
  split
  · rename_i hcond
    obtain ⟨t, hts⟩ := rstripSlashes_append p
    by_cases hnil : rstripSlashes p = []
    · rw [hnil]
      simpa using hroot
    · rw [if_neg hnil]
      refine ⟨?_, ?_, Or.inr ?_⟩
      · have hpne : p ≠ [] := by
          intro hcn
          rw [hcn] at hcond
          simp at hcond
        have hph : p.head? = some '/' := by
          rcases hh with rfl | hh
          · exact absurd rfl hpne
          · exact hh
        rw [← hts, List.head?_append] at hph
        rcases hhd : (rstripSlashes p).head? with _ | c
        · exact absurd hhd (by simpa using hnil)
        · rw [hhd] at hph
          simpa using hph
      · intro c hcm
        exact hc c (by rw [← hts]; exact List.mem_append_left _ hcm)
      · rcases rstripSlashes_getLast p with hcn | hlast
        · exact absurd hcn hnil
        · exact hlast
  · rename_i hcond
    by_cases hnil : p = []
    · rw [if_pos hnil]
      exact hroot
    · rw [if_neg hnil]
      refine ⟨?_, hc, ?_⟩
      · rcases hh with rfl | hh
        · exact absurd rfl hnil
        · exact hh
      · by_cases hq : p = ['/']
        · exact Or.inl hq
        · right
          intro hlast
          exact hcond ⟨hq, hlast⟩

/-! ### Reparse helpers

Lemmas about `pyPartition`, `pyRPartition`, `isPrefixOf` and
`lowerChars` used to show that re-parsing a reassembled normalized URL
recovers its components. -/

theorem pyRPartition_eq (sep : Char) (l : List Char) :
    pyRPartition sep l = ((pyPartition sep l.reverse).2.2.reverse,
      (pyPartition sep l.reverse).2.1, (pyPartition sep l.reverse).1.reverse) := by
  rcases hP : pyPartition sep l.reverse with ⟨ra, f, rb⟩
  simp [pyRPartition, hP]

theorem pyRPartition_not_mem {sep : Char} {l : List Char} (h : sep ∉ l) :
    pyRPartition sep l = ([], false, l) := by
  have hr : sep ∉ l.reverse := by simpa using h
  rw [pyRPartition_eq, pyPartition_not_mem hr]
  simp

theorem pyRPartition_snd_not_mem (sep : Char) (l : List Char) :
    sep ∉ (pyRPartition sep l).2.2 := by
  rw [pyRPartition_eq]
  simp only [List.mem_reverse]
  exact pyPartition_fst_not_mem sep l.reverse

theorem pyRPartition_snd_subset (sep : Char) (l : List Char) :
    ∀ c ∈ (pyRPartition sep l).2.2, c ∈ l := by
  rw [pyRPartition_eq]
  intro c hc
  rw [List.mem_reverse] at hc
  have := pyPartition_fst_subset c hc
  simpa using this

theorem pyPartition_snd_subset {sep : Char} {l : List Char} :
    ∀ c ∈ (pyPartition sep l).2.2, c ∈ l := by
  intro c hc
  have hsub := (List.dropWhile_suffix (l := l) (fun c => c != sep)).subset
  simp only [pyPartition] at hc
  rcases hd : l.dropWhile (fun c => c != sep) with _ | ⟨d, tail⟩ <;> rw [hd] at hc
  · simp at hc
  · exact hsub (by rw [hd]; exact List.mem_cons_of_mem d hc)

theorem pyPartition_reassemble (sep : Char) (l : List Char) :
    (pyPartition sep l).1 ++
      (if (pyPartition sep l).2.1 then sep :: (pyPartition sep l).2.2 else []) =
      l := by
  have hsplit := List.takeWhile_append_dropWhile
    (p := fun c : Char => c != sep) (l := l)
  rcases hd : l.dropWhile (fun c => c != sep) with _ | ⟨d, tail⟩
  · rw [hd] at hsplit
    simp only [pyPartition, hd]
    simpa using hsplit
  · have hdneg := List.head?_dropWhile_not (fun c : Char => c != sep) l
    rw [hd] at hdneg
    simp only [List.head?_cons] at hdneg
    have hdsep : d = sep := by
      simpa using hdneg
    subst hdsep
    rw [hd] at hsplit
    simp only [pyPartition, hd, if_pos]
    simpa using hsplit

theorem isPrefixOf_append_self : ∀ (l t : List Char), l.isPrefixOf (l ++ t) = true
  | [], _ => by simp
  | c :: rest, t => by
      simp [List.isPrefixOf, isPrefixOf_append_self rest t]

theorem lowerChars_append (A B : List Char) :
    lowerChars (A ++ B) = lowerChars A ++ lowerChars B := by
  simp [lowerChars]

theorem lowerChars_fixed {l : List Char} (h : ∀ c ∈ l, c.toLower = c) :
    lowerChars l = l := by
  induction l with
  | nil => rfl
  | cons c rest ih =>
      simp only [lowerChars, List.map_cons]
      rw [h c (List.mem_cons_self c rest)]
      have := ih (fun d hd => h d (List.mem_cons_of_mem c hd))
      simp only [lowerChars] at this
      rw [this]

theorem hostOk_not_mem {host : List Char} (hh : HostOk host) {c : Char}
    (hc : c ∈ hostForbidden) : c ∉ host :=
  fun hm => (hh c hm).2.2 hc

theorem not_mem_pyNatStr {c : Char} (hc : ¬(48 ≤ c.toNat ∧ c.toNat ≤ 57))
    (p : Nat) : c ∉ pyNatStr p :=
  fun hm => hc (pyNatStr_digit_chars c hm)

theorem not_mem_netloc {c : Char} {host Y : List Char} (h1 : c ∉ host)
    (h2 : c ≠ ':') (h3 : c ∉ Y) : c ∉ host ++ ':' :: Y := by
  simp only [List.mem_append, List.mem_cons, not_or]
  exact ⟨h1, h2, h3⟩

theorem pyHostinfo_no_port {host : List Char} (hh : HostOk host) :
    pyHostinfo host = (host, none) := by
  have hat : '@' ∉ host := hostOk_not_mem hh (by decide)
  have hbr : '[' ∉ host := hostOk_not_mem hh (by decide)
  have hcol : ':' ∉ host := hostOk_not_mem hh (by decide)
  simp [pyHostinfo, pyRPartition_not_mem hat, pyPartition_not_mem hbr,
    pyPartition_not_mem hcol]

theorem pyHostinfo_with_port {host : List Char} (hh : HostOk host) (p : Nat) :
    pyHostinfo (host ++ ':' :: pyNatStr p) = (host, some (pyNatStr p)) := by
  have hat : '@' ∉ host ++ ':' :: pyNatStr p :=
    not_mem_netloc (hostOk_not_mem hh (by decide)) (by decide)
      (not_mem_pyNatStr (by decide) p)
  have hbr : '[' ∉ host ++ ':' :: pyNatStr p :=
    not_mem_netloc (hostOk_not_mem hh (by decide)) (by decide)
      (not_mem_pyNatStr (by decide) p)
  have hcol : ':' ∉ host := hostOk_not_mem hh (by decide)
  simp [pyHostinfo, pyRPartition_not_mem hat, pyPartition_not_mem hbr,
    pyPartition_append hcol, pyNatStr_ne_nil p]

theorem pyHostnameProp_fixed {netloc host : List Char}
    (h1 : (pyHostinfo netloc).1 = host) (hh : HostOk host) :
    pyHostnameProp netloc = host := by
  simp only [pyHostnameProp, h1]
  by_cases he : host = []
  · simp [he]
  · rw [if_neg he]
    rcases hP : pyPartition '%' host with ⟨pre, percent, zone⟩
    have hre := pyPartition_reassemble '%' host
    rw [hP] at hre
    simp only at hre
    have hfix : lowerChars pre = pre := lowerChars_fixed (fun c hc =>
      (hh c (pyPartition_fst_subset c (by rw [hP]; exact hc))).2.1)
    show lowerChars pre ++ (if percent then '%' :: zone else []) = host
    rw [hfix]
    exact hre

theorem pyPortProp_no_port {host : List Char} (hh : HostOk host) :
    pyPortProp host = .ok none := by
  simp [pyPortProp, pyHostinfo_no_port hh]

theorem pyPortProp_with_port {host : List Char} (hh : HostOk host) {p : Nat}
    (hp : p ≤ 65535) :
    pyPortProp (host ++ ':' :: pyNatStr p) = .ok (some p) := by
  simp [pyPortProp, pyHostinfo_with_port hh, pyPortVal_pyNatStr, hp]

theorem contains_eq_false_of_not_mem {l : List Char} {c : Char} (h : c ∉ l) :
    l.contains c = false := by
  simpa using h

theorem contains_eq_true_of_mem {l : List Char} {c : Char} (h : c ∈ l) :
    l.contains c = true := by
  simpa using h

theorem head_take_one {l : List Char} (h : l.head? = some '/') :
    l.take 1 = ['/'] := by
  cases l with
  | nil => simp at h
  | cons c t =>
      simp only [List.head?_cons, Option.some.injEq] at h
      subst h
      rfl

/-- Characters of a scheme whose lowercase form is `http` or `https`
are scheme characters, are not removed by `urlsplit`, are not `:` and
are not stripped as leading C0 controls. -/
theorem scheme_chars_facts {sch : List Char}
    (hlow : lowerChars sch = "http".data ∨ lowerChars sch = "https".data) :
    sch ≠ [] ∧
    (∀ c ∈ sch, isSchemeChar c = true ∧ isUnsafeUrlChar c = false ∧
      c ≠ ':' ∧ isC0OrSpace c = false) ∧
    (sch.take 1).all (fun c => isAsciiChar c && isAsciiAlphaChar c) = true := by
  have hchar : ∀ c ∈ sch, 65 ≤ c.toNat ∧ c.toNat ≤ 122 ∧
      ¬(91 ≤ c.toNat ∧ c.toNat ≤ 96) := by
    intro c hc
    have hlmem : c.toLower ∈ lowerChars sch := List.mem_map_of_mem _ hc
    have hl4 : c.toLower.toNat = 104 ∨ c.toLower.toNat = 116 ∨
        c.toLower.toNat = 112 ∨ c.toLower.toNat = 115 := by
      rcases hlow with h | h <;> rw [h] at hlmem
      · have he : "http".data = ['h', 't', 't', 'p'] := rfl
        rw [he] at hlmem
        simp only [List.mem_cons, List.not_mem_nil, or_false] at hlmem
        rcases hlmem with h4 | h4 | h4 | h4 <;> rw [h4] <;> decide
      · have he : "https".data = ['h', 't', 't', 'p', 's'] := rfl
        rw [he] at hlmem
        simp only [List.mem_cons, List.not_mem_nil, or_false] at hlmem
        rcases hlmem with h4 | h4 | h4 | h4 | h4 <;> rw [h4] <;> decide
    have ht := char_toLower_toNat c
    by_cases hup : 65 ≤ c.toNat ∧ c.toNat ≤ 90
    · rw [if_pos hup] at ht
      omega
    · rw [if_neg hup] at ht
      omega
  have hne : sch ≠ [] := by
    intro hcn
    rw [hcn] at hlow
    rcases hlow with h | h <;> exact absurd h.symm (by decide)
  refine ⟨hne, ?_, ?_⟩
  · intro c hc
    have hr := hchar c hc
    refine ⟨?_, ?_, ?_, ?_⟩
    · simp only [isSchemeChar, isAsciiAlphaChar, isAsciiDigitChar,
        Bool.or_eq_true, Bool.and_eq_true, decide_eq_true_eq]
      omega
    · simp only [isUnsafeUrlChar, Bool.or_eq_true, beq_iff_eq]
      have h9 : ('\t' : Char).toNat = 9 := by decide
      have h13 : ('\r' : Char).toNat = 13 := by decide
      have h10 : ('\n' : Char).toNat = 10 := by decide
      simp only [Bool.or_eq_false_iff, beq_eq_false_iff_ne, ne_eq]
      refine ⟨⟨fun hcq => ?_, fun hcq => ?_⟩, fun hcq => ?_⟩ <;>
        rw [hcq] at hr <;> revert hr <;> decide
    · intro hcq
      rw [hcq] at hr
      revert hr
      decide
    · simp only [isC0OrSpace, decide_eq_false_iff_not]
      omega
  · cases sch with
    | nil => exact absurd rfl hne
    | cons c0 t =>
        have hr := hchar c0 (List.mem_cons_self _ _)
        simp only [List.take_succ_cons, List.take_zero, List.all_cons,
          List.all_nil, Bool.and_true, isAsciiChar, isAsciiAlphaChar,
          Bool.and_eq_true, Bool.or_eq_true, decide_eq_true_eq]
        omega

theorem pyUrlunsplit_http {scheme netloc path query : List Char}
    (hs : scheme = "http".data ∨ scheme = "https".data)
    (hp : path.head? = some '/')
    (hbranch : netloc ≠ [] ∨ path.take 2 ≠ ['/', '/']) :
    pyUrlunsplit scheme netloc path query =
      scheme ++ ':' :: '/' :: '/' :: (netloc ++ path) ++
        (if query = [] then [] else '?' :: query) := by
  have hschemene : scheme ≠ [] := by
    rcases hs with rfl | rfl <;> decide
  have huses : String.mk scheme ∈ uses_netloc := by
    rcases hs with rfl | rfl <;> decide
  have hcond : netloc ≠ [] ∨ (scheme ≠ [] ∧ String.mk scheme ∈ uses_netloc ∧
      path.take 2 ≠ ['/', '/']) := by
    rcases hbranch with h | h
    · exact Or.inl h
    · exact Or.inr ⟨hschemene, huses, h⟩
  have hp1 : ¬(path ≠ [] ∧ path.take 1 ≠ ['/']) := by
    intro hcm
    exact hcm.2 (head_take_one hp)
  simp only [pyUrlunsplit]
  rw [if_pos hcond, if_neg hp1, if_pos hschemene]
  by_cases hq : query = []
  · rw [if_neg (show ¬query ≠ [] from fun hc => hc hq), if_pos hq]
    simp
  · rw [if_pos hq, if_neg hq]

/-- Parsing `sch://rest` for an `http(s)`-cased `sch`: the scheme is
recognized and lowercased, the netloc runs to the first `/?#` of the
cleaned remainder, and a `]` in the netloc (with no `[` anywhere in
`rest`) is rejected. -/
theorem pyUrlsplit_shape {sch rest clean nl r2 bh : List Char}
    (hlow : lowerChars sch = "http".data ∨ lowerChars sch = "https".data)
    (hnobr : '[' ∉ nl)
    (hclean : clean = rest.filter (fun c => !(isUnsafeUrlChar c)))
    (hnl : nl = clean.takeWhile (fun c => !(c == '/' || c == '?' || c == '#')))
    (hr2 : r2 = clean.dropWhile (fun c => !(c == '/' || c == '?' || c == '#')))
    (hbh : bh = (pyPartition '#' r2).1) :
    pyUrlsplit (sch ++ ':' :: '/' :: '/' :: rest) =
      (if ']' ∈ nl then .error () else
       .ok ⟨lowerChars sch, nl, (pyPartition '?' bh).1, (pyPartition '?' bh).2.2,
         (pyPartition '#' r2).2.2⟩) := by
  obtain ⟨hne, hfacts, htake1⟩ := scheme_chars_facts hlow
  obtain ⟨c0, sch0, rfl⟩ : ∃ c0 sch0, sch = c0 :: sch0 := by
    cases sch with
    | nil => exact absurd rfl hne
    | cons a b => exact ⟨a, b, rfl⟩
  have hc0 := hfacts c0 (List.mem_cons_self _ _)
  have hdrop : ((c0 :: sch0) ++ ':' :: '/' :: '/' :: rest).dropWhile isC0OrSpace =
      (c0 :: sch0) ++ ':' :: '/' :: '/' :: rest := by
    rw [List.cons_append, List.dropWhile_cons_of_neg (by simp [hc0.2.2.2])]
  have hfil : ((c0 :: sch0) ++ ':' :: '/' :: '/' :: rest).filter
      (fun c => !(isUnsafeUrlChar c)) =
      (c0 :: sch0) ++ ':' :: '/' :: '/' :: clean := by
    rw [List.filter_append]
    congr 1
    · exact List.filter_eq_self.mpr (fun c hc => by simp [(hfacts c hc).2.1])
    · rw [hclean]
      simp [List.filter_cons, isUnsafeUrlChar]
  have hcol : ':' ∉ c0 :: sch0 := fun hm => (hfacts _ hm).2.2.1 rfl
  have hP := @pyPartition_append ':' (c0 :: sch0) ('/' :: '/' :: clean) hcol
  have hall : (c0 :: sch0).all isSchemeChar = true :=
    List.all_eq_true.mpr (fun c hc => (hfacts c hc).1)
  simp only [pyUrlsplit, hdrop, hfil, hP, hall, htake1, Bool.and_true,
    Bool.true_and, ne_eq, List.cons_ne_nil, not_false_eq_true, decide_True,
    if_true]
  rw [if_pos (show (('/' : Char) :: '/' :: clean).take 2 = ['/', '/'] from rfl)]
  rw [show (('/' : Char) :: '/' :: clean).drop 2 = clean from rfl]
  rw [← hnl, ← hr2]
  have hcbl : nl.contains '[' = false := contains_eq_false_of_not_mem hnobr
  by_cases hcr : ']' ∈ nl
  · rw [if_pos hcr]
    have hcrt := contains_eq_true_of_mem hcr
    rw [if_pos (by rw [hcbl, hcrt]; simp)]
  · rw [if_neg hcr]
    have hcrf := contains_eq_false_of_not_mem hcr
    rw [if_neg (by rw [hcbl, hcrf]; simp), if_neg (by rw [hcbl]; simp)]
    rcases hF : pyPartition '#' r2 with ⟨bh2, f2, fr2⟩
    have hbh2 : bh = bh2 := by rw [hbh, hF]
    subst hbh2
    rcases hQ : pyPartition '?' bh with ⟨p2, q2f, q2⟩
    rfl

theorem hasHttpScheme_shape {sch rest : List Char}
    (hlow : lowerChars sch = "http".data ∨ lowerChars sch = "https".data) :
    hasHttpScheme (sch ++ ':' :: '/' :: '/' :: rest) = true := by
  rw [hasHttpScheme]
  rcases hlow with h | h
  · have key : lowerChars (sch ++ ':' :: '/' :: '/' :: rest) =
        "http://".data ++ lowerChars rest := by
      rw [lowerChars_append, h]
      rfl
    rw [key, isPrefixOf_append_self]
    rfl
  · have key : lowerChars (sch ++ ':' :: '/' :: '/' :: rest) =
        "https://".data ++ lowerChars rest := by
      rw [lowerChars_append, h]
      rfl
    rw [key, isPrefixOf_append_self]
    simp

/-- The final component computation of `normalize_url`, given the
result of `urlparse` on the (scheme-complete) input: the scheme is kept,
the hostname and an explicit non-default port are reassembled unchanged,
and normalized path and query are fixed points. -/
theorem normComponents_of_parse {s : String}
    {scheme netloc path query host : List Char}
    (hs : scheme = "http".data ∨ scheme = "https".data)
    (hhs : hasHttpScheme s.data = true)
    (hparse : pyUrlparse s.data = .ok ⟨scheme, netloc, path, [], query, []⟩)
    (hhost : HostOk host)
    (hport : netloc = host ∨
      ∃ p, netloc = host ++ ':' :: pyNatStr p ∧ 1 ≤ p ∧ p ≤ 65535 ∧
        ¬(scheme = "http".data ∧ p = 80) ∧ ¬(scheme = "https".data ∧ p = 443))
    (hpath : PathOk path)
    (hq : QueryOk query) :
    normComponents s = some ⟨scheme, netloc, path, query⟩ := by
  have hlowfix : lowerChars scheme = scheme := by
    rcases hs with rfl | rfl <;> decide
  have hhfix : lowerChars host = host :=
    lowerChars_fixed (fun c hc => (hhost c hc).2.1)
  rcases hport with rfl | ⟨p, rfl, h1p, h65, hnd1, hnd2⟩
  · simp only [normComponents, hhs, Bool.not_true, Bool.false_eq_true,
      if_false, hparse]
    rw [hlowfix,
      pyHostnameProp_fixed (by rw [pyHostinfo_no_port hhost]) hhost, hhfix,
      pyPortProp_no_port hhost]
    simp only []
    rw [if_neg (by rintro (⟨_, h⟩ | ⟨_, h⟩) <;> exact Option.noConfusion h)]
    simp only []
    rw [normPath_fixed hpath, normQuery_fixed hq]
  · obtain ⟨pv, rfl⟩ : ∃ pv, p = pv + 1 := ⟨p - 1, by omega⟩
    simp only [normComponents, hhs, Bool.not_true, Bool.false_eq_true,
      if_false, hparse]
    rw [hlowfix,
      pyHostnameProp_fixed (by rw [pyHostinfo_with_port hhost]) hhost, hhfix,
      pyPortProp_with_port hhost h65]
    simp only []
    rw [if_neg (by
      rintro (⟨hsch, hp80⟩ | ⟨hsch, hp443⟩)
      · exact hnd1 ⟨hsch, by have := Option.some.inj hp80; omega⟩
      · exact hnd2 ⟨hsch, by have := Option.some.inj hp443; omega⟩)]
    simp only []
    rw [normPath_fixed hpath, normQuery_fixed hq]

/-- Re-parsing the `urlunparse` reassembly of normalized components
recovers exactly those components. -/
theorem normComponents_unsplit {scheme netloc path query : List Char}
    (hs : scheme = "http".data ∨ scheme = "https".data)
    (hn : NetlocOk scheme netloc)
    (hp : PathOk path)
    (hq : QueryOk query)
    (hbranch : netloc ≠ [] ∨ path.take 2 ≠ ['/', '/']) :
    normComponents (String.mk (pyUrlunsplit scheme netloc path query)) =
      some ⟨scheme, netloc, path, query⟩ := by
  obtain ⟨hhead, hpc, hlast⟩ := hp
  obtain ⟨host, pp, hnlc, hhost, hppc⟩ := hn
  have hlowfix : lowerChars scheme = scheme := by
    rcases hs with rfl | rfl <;> decide
  have hlow : lowerChars scheme = "http".data ∨
      lowerChars scheme = "https".data := by
    rw [hlowfix]; exact hs
  have hport : netloc = host ∨
      ∃ p, netloc = host ++ ':' :: pyNatStr p ∧ 1 ≤ p ∧ p ≤ 65535 ∧
        ¬(scheme = "http".data ∧ p = 80) ∧ ¬(scheme = "https".data ∧ p = 443) := by
    rcases pp with _ | p
    · left
      simpa using hnlc
    · right
      obtain ⟨h1, h2, h3, h4⟩ := hppc
      exact ⟨p, hnlc, h1, h2, h3, h4⟩
  have hppart : ∀ c ∈ (match pp with
      | some p => ':' :: pyNatStr p
      | none => ([] : List Char)), (48 ≤ c.toNat ∧ c.toNat ≤ 57) ∨ c = ':' := by
    rcases pp with _ | p
    · intro c hm
      simp at hm
    · intro c hm
      rcases List.mem_cons.1 hm with rfl | hm
      · exact Or.inr rfl
      · exact Or.inl (pyNatStr_digit_chars c hm)
  have hnetchars : ∀ c ∈ netloc,
      (!(c == '/' || c == '?' || c == '#')) = true ∧
      isUnsafeUrlChar c = false ∧ c ≠ '[' ∧ c ≠ ']' := by
    intro c hm
    rw [hnlc] at hm
    rcases List.mem_append.1 hm with hm | hm
    · have hf := (hhost c hm).2.2
      simp only [hostForbidden, List.mem_cons, List.not_mem_nil, or_false] at hf
      push_neg at hf
      obtain ⟨h1, h2, h3, _, _, h6, h7, h8, h9, h10⟩ := hf
      exact ⟨by simp [h1, h2, h3], by simp [isUnsafeUrlChar, h8, h9, h10],
        h6, h7⟩
    · rcases hppart c hm with hd | rfl
      · have hne : ∀ d : Char, ¬(48 ≤ d.toNat ∧ d.toNat ≤ 57) → c ≠ d := by
          intro d hdn hc
          rw [hc] at hd
          exact hdn hd
        refine ⟨?_, ?_, hne '[' (by decide), hne ']' (by decide)⟩
        · simp [hne '/' (by decide), hne '?' (by decide), hne '#' (by decide)]
        · simp [isUnsafeUrlChar, hne '\t' (by decide), hne '\r' (by decide),
            hne '\n' (by decide)]
      · exact ⟨by decide, by decide, by decide, by decide⟩
  obtain ⟨pt, rfl⟩ : ∃ t, path = '/' :: t := by
    cases path with
    | nil => simp at hhead
    | cons c t =>
        simp only [List.head?_cons, Option.some.injEq] at hhead
        exact ⟨t, by rw [hhead]⟩
  have hpathchars : ∀ c ∈ ('/' :: pt), c ≠ '?' ∧ c ≠ '#' ∧ c ≠ ';' ∧
      isUnsafeUrlChar c = false := by
    intro c hm
    have h := hpc c hm
    simp only [List.mem_cons, List.not_mem_nil, or_false] at h
    push_neg at h
    obtain ⟨h1, h2, h3, h4, h5, h6⟩ := h
    exact ⟨h1, h2, h3, by simp [isUnsafeUrlChar, h4, h5, h6]⟩
  have hquerychars : ∀ c ∈ query, c ≠ '#' ∧ isUnsafeUrlChar c = false := by
    intro c hm
    rcases hq with rfl | ⟨ps, hne, hsort, rfl⟩
    · simp at hm
    · have h := urlencodePairs_mem hm
      refine ⟨?_, ?_⟩
      · intro hc
        rw [hc] at h
        revert h
        decide
      · simp only [isUnsafeUrlChar, Bool.or_eq_false_iff, beq_eq_false_iff_ne,
          ne_eq]
        refine ⟨⟨?_, ?_⟩, ?_⟩ <;> intro hc <;> rw [hc] at h <;> revert h <;>
          decide
  have hnoh : '#' ∉ ('/' :: pt) := fun hm => (hpathchars _ hm).2.1 rfl
  have hnoq : '?' ∉ ('/' :: pt) := fun hm => (hpathchars _ hm).1 rfl
  have hnosemi : ('/' :: pt).contains ';' = false :=
    contains_eq_false_of_not_mem (fun hm => (hpathchars _ hm).2.2.1 rfl)
  rw [pyUrlunsplit_http hs (show ('/' :: pt).head? = some '/' from rfl) hbranch]
  by_cases hq0 : query = []
  · subst hq0
    rw [if_pos rfl, List.append_nil]
    refine normComponents_of_parse hs ?_ ?_ hhost hport ⟨rfl, hpc, hlast⟩ hq
    · exact hasHttpScheme_shape hlow
    · have hfilter : (netloc ++ ('/' :: pt)).filter
          (fun c => !(isUnsafeUrlChar c)) = netloc ++ ('/' :: pt) :=
        List.filter_eq_self.mpr (fun c hc => by
          rcases List.mem_append.1 hc with hc | hc
          · simp [(hnetchars c hc).2.1]
          · simp [(hpathchars c hc).2.2.2])
      have hnl : netloc = (netloc ++ ('/' :: pt)).takeWhile
          (fun c => !(c == '/' || c == '?' || c == '#')) := by
        rw [List.takeWhile_append_of_pos (fun c hc => (hnetchars c hc).1),
          List.takeWhile_cons_of_neg (by decide), List.append_nil]
      have hr2 : ('/' :: pt) = (netloc ++ ('/' :: pt)).dropWhile
          (fun c => !(c == '/' || c == '?' || c == '#')) := by
        rw [List.dropWhile_append_of_pos (fun c hc => (hnetchars c hc).1),
          List.dropWhile_cons_of_neg (by decide)]
      have hsplit := pyUrlsplit_shape hlow
        (fun hm => (hnetchars _ hm).2.2.1 rfl) hfilter.symm hnl hr2
        (show ('/' :: pt) = (pyPartition '#' ('/' :: pt)).1 by
          rw [pyPartition_not_mem hnoh])
      rw [if_neg (fun hm => (hnetchars _ hm).2.2.2 rfl),
        pyPartition_not_mem hnoq, pyPartition_not_mem hnoh] at hsplit
      show pyUrlparse (scheme ++ ':' :: '/' :: '/' ::
        (netloc ++ ('/' :: pt))) = _
      rw [pyUrlparse, hsplit]
      simp only [hlowfix, hnosemi, Bool.false_eq_true, and_false, if_false]
  · rw [if_neg hq0, List.append_assoc, List.cons_append, List.cons_append,
      List.cons_append, List.append_assoc]
    refine normComponents_of_parse hs ?_ ?_ hhost hport ⟨rfl, hpc, hlast⟩ hq
    · exact hasHttpScheme_shape hlow
    · have hfilter : (netloc ++ (('/' :: pt) ++ '?' :: query)).filter
          (fun c => !(isUnsafeUrlChar c)) =
          netloc ++ (('/' :: pt) ++ '?' :: query) :=
        List.filter_eq_self.mpr (fun c hc => by
          rcases List.mem_append.1 hc with hc | hc
          · simp [(hnetchars c hc).2.1]
          · rcases List.mem_append.1 hc with hc | hc
            · simp [(hpathchars c hc).2.2.2]
            · rcases List.mem_cons.1 hc with rfl | hc
              · decide
              · simp [(hquerychars c hc).2])
      have hnl : netloc = (netloc ++ (('/' :: pt) ++ '?' :: query)).takeWhile
          (fun c => !(c == '/' || c == '?' || c == '#')) := by
        rw [List.takeWhile_append_of_pos (fun c hc => (hnetchars c hc).1),
          List.cons_append, List.takeWhile_cons_of_neg (by decide),
          List.append_nil]
      have hr2 : ('/' :: pt) ++ '?' :: query =
          (netloc ++ (('/' :: pt) ++ '?' :: query)).dropWhile
          (fun c => !(c == '/' || c == '?' || c == '#')) := by
        rw [List.dropWhile_append_of_pos (fun c hc => (hnetchars c hc).1),
          List.cons_append, List.dropWhile_cons_of_neg (by decide)]
      have hnoh2 : '#' ∉ ('/' :: pt) ++ '?' :: query := by
        intro hm
        rcases List.mem_append.1 hm with hm | hm
        · exact hnoh hm
        · rcases List.mem_cons.1 hm with hcq | hm
          · exact absurd hcq (by decide)
          · exact (hquerychars _ hm).1 rfl
      have hsplit := pyUrlsplit_shape hlow
        (fun hm => (hnetchars _ hm).2.2.1 rfl) hfilter.symm hnl hr2
        (show ('/' :: pt) ++ '?' :: query =
            (pyPartition '#' (('/' :: pt) ++ '?' :: query)).1 by
          rw [pyPartition_not_mem hnoh2])
      rw [if_neg (fun hm => (hnetchars _ hm).2.2.2 rfl),
        pyPartition_append hnoq, pyPartition_not_mem hnoh2] at hsplit
      show pyUrlparse (scheme ++ ':' :: '/' :: '/' ::
        (netloc ++ (('/' :: pt) ++ '?' :: query))) = _
      rw [pyUrlparse, hsplit]
      simp only [hlowfix, hnosemi, Bool.false_eq_true, and_false, if_false]

/-! ### Inversion: invariants of `normComponents` output -/

theorem pyPortProp_ok_inv {netloc : List Char} {port0 : Option Nat}
    (h : pyPortProp netloc = .ok port0) :
    port0 = none ∨ ∃ p, port0 = some p ∧ p ≤ 65535 := by
  rw [pyPortProp] at h
  rcases hh : (pyHostinfo netloc).2 with _ | pstr
  · rw [hh] at h
    simp only [] at h
    left
    exact (Except.ok.inj h).symm
  · rw [hh] at h
    simp only [] at h
    rcases hpv : pyPortVal pstr with _ | v
    · rw [hpv] at h
      simp only [] at h
      exact absurd h (by simp)
    · rw [hpv] at h
      simp only [] at h
      by_cases hle : v ≤ 65535
      · rw [if_pos hle] at h
        right
        exact ⟨v, (Except.ok.inj h).symm, hle⟩
      · rw [if_neg hle] at h
        exact absurd h (by simp)

theorem pyHostinfo_fst_props {netloc : List Char} (hnb : '[' ∉ netloc) :
    (∀ c ∈ (pyHostinfo netloc).1, c ∈ netloc) ∧
    ':' ∉ (pyHostinfo netloc).1 ∧ '@' ∉ (pyHostinfo netloc).1 := by
  have hsub0 := pyRPartition_snd_subset '@' netloc
  have hat0 := pyRPartition_snd_not_mem '@' netloc
  have hnbi : '[' ∉ (pyRPartition '@' netloc).2.2 := fun hm => hnb (hsub0 _ hm)
  simp only [pyHostinfo, pyPartition_not_mem hnbi]
  refine ⟨?_, ?_, ?_⟩
  · intro c hc
    exact hsub0 c (pyPartition_fst_subset c hc)
  · exact pyPartition_fst_not_mem ':' _
  · intro hm
    exact hat0 (pyPartition_fst_subset _ hm)

theorem pyHostnameProp_mem {netloc : List Char} :
    ∀ c ∈ pyHostnameProp netloc, c = '%' ∨
      ∃ d, d ∈ (pyHostinfo netloc).1 ∧ (c = d ∨ c = d.toLower) := by
  intro c hc
  simp only [pyHostnameProp] at hc
  split at hc
  · simp at hc
  · rcases hP : pyPartition '%' (pyHostinfo netloc).1 with ⟨pre, pct, zone⟩
    rw [hP] at hc
    simp only at hc
    rcases List.mem_append.1 hc with hc | hc
    · rcases List.mem_map.1 hc with ⟨d, hd, rfl⟩
      have hd' : d ∈ (pyPartition '%' (pyHostinfo netloc).1).1 := by
        rw [hP]
        exact hd
      exact Or.inr ⟨d, pyPartition_fst_subset d hd', Or.inr rfl⟩
    · split at hc
      · rcases List.mem_cons.1 hc with rfl | hc
        · exact Or.inl rfl
        · refine Or.inr ⟨c, ?_, Or.inl rfl⟩
          have hz := @pyPartition_snd_subset '%' (pyHostinfo netloc).1
          rw [hP] at hz
          exact hz c hc
      · simp at hc

theorem hostOk_of_clean {netloc : List Char}
    (hascii : ∀ c ∈ netloc, c.toNat ≤ 0x7f)
    (hstops : ∀ c ∈ netloc, c ≠ '/' ∧ c ≠ '?' ∧ c ≠ '#')
    (husf : ∀ c ∈ netloc, isUnsafeUrlChar c = false)
    (hnb : '[' ∉ netloc) (hnr : ']' ∉ netloc) :
    HostOk (lowerChars (pyHostnameProp netloc)) := by
  obtain ⟨hsub, hcolon, hat⟩ := pyHostinfo_fst_props hnb
  intro c hc
  rcases List.mem_map.1 hc with ⟨c0, hc0, rfl⟩
  rcases pyHostnameProp_mem c0 hc0 with rfl | ⟨d, hd, hcd⟩
  · exact ⟨by decide, by decide, by decide⟩
  · have hdnet := hsub d hd
    have hceq : c0.toLower = d.toLower := by
      rcases hcd with rfl | rfl
      · rfl
      · exact char_toLower_idem d
    rw [hceq]
    refine ⟨char_toLower_ascii (hascii d hdnet), char_toLower_idem d, ?_⟩
    intro hf
    simp only [hostForbidden, List.mem_cons, List.not_mem_nil, or_false] at hf
    rcases hf with hf | hf | hf | hf | hf | hf | hf | hf | hf | hf
    · exact (hstops d hdnet).1 (char_toLower_eq_of_not_lower (by decide) hf)
    · exact (hstops d hdnet).2.1 (char_toLower_eq_of_not_lower (by decide) hf)
    · exact (hstops d hdnet).2.2 (char_toLower_eq_of_not_lower (by decide) hf)
    · have hde := char_toLower_eq_of_not_lower (by decide) hf
      rw [hde] at hd
      exact hcolon hd
    · have hde := char_toLower_eq_of_not_lower (by decide) hf
      rw [hde] at hd
      exact hat hd
    · have hde := char_toLower_eq_of_not_lower (by decide) hf
      rw [hde] at hdnet
      exact hnb hdnet
    · have hde := char_toLower_eq_of_not_lower (by decide) hf
      rw [hde] at hdnet
      exact hnr hdnet
    · have hde := char_toLower_eq_of_not_lower (by decide) hf
      have hu := husf d hdnet
      rw [hde] at hu
      revert hu
      decide
    · have hde := char_toLower_eq_of_not_lower (by decide) hf
      have hu := husf d hdnet
      rw [hde] at hu
      revert hu
      decide
    · have hde := char_toLower_eq_of_not_lower (by decide) hf
      have hu := husf d hdnet
      rw [hde] at hu
      revert hu
      decide

theorem dropWhile_head_stop (l : List Char) :
    l.dropWhile (fun c => !(c == '/' || c == '?' || c == '#')) = [] ∨
    ∃ d t, l.dropWhile (fun c => !(c == '/' || c == '?' || c == '#')) = d :: t ∧
      (d = '/' ∨ d = '?' ∨ d = '#') := by
  rcases hd : l.dropWhile (fun c => !(c == '/' || c == '?' || c == '#'))
    with _ | ⟨d, t⟩
  · exact Or.inl rfl
  · right
    refine ⟨d, t, rfl, ?_⟩
    have hstop := List.head?_dropWhile_not
      (fun c : Char => !(c == '/' || c == '?' || c == '#')) l
    rw [hd] at hstop
    simp only [List.head?_cons] at hstop
    by_contra hcon
    push_neg at hcon
    simp [hcon.1, hcon.2.1, hcon.2.2] at hstop

theorem split_path_shape {r2 : List Char}
    (hstop : r2 = [] ∨ ∃ d t, r2 = d :: t ∧ (d = '/' ∨ d = '?' ∨ d = '#')) :
    (pyPartition '?' (pyPartition '#' r2).1).1 = [] ∨
    ((pyPartition '?' (pyPartition '#' r2).1).1).head? = some '/' := by
  rcases hstop with rfl | ⟨d, t, rfl, hd⟩
  · left
    rfl
  · rcases hd with rfl | rfl | rfl
    · right
      simp only [pyPartition]
      rw [List.takeWhile_cons_of_pos (by decide),
        List.takeWhile_cons_of_pos (by decide)]
      rfl
    · left
      simp only [pyPartition]
      rw [List.takeWhile_cons_of_pos (by decide),
        List.takeWhile_cons_of_neg (by decide)]
    · left
      simp only [pyPartition]
      rw [List.takeWhile_cons_of_neg (by decide)]
      rfl

theorem map_eq_append_inv {f : Char → Char} :
    ∀ {pre : List Char} {l t : List Char}, l.map f = pre ++ t →
      ∃ l1 l2, l = l1 ++ l2 ∧ l1.map f = pre ∧ l2.map f = t := by
  intro pre
  induction pre with
  | nil =>
      intro l t h
      exact ⟨[], l, rfl, rfl, h⟩
  | cons a pre ih =>
      intro l t h
      cases l with
      | nil => simp at h
      | cons c l2 =>
          simp only [List.map_cons, List.cons_append, List.cons.injEq] at h
          obtain ⟨l1, l2', rfl, hm1, hm2⟩ := ih h.2
          exact ⟨c :: l1, l2', rfl, by simp [h.1, hm1], hm2⟩

theorem map_toLower_colon_slash {m : List Char}
    (h : m.map Char.toLower = [':', '/', '/']) : m = [':', '/', '/'] := by
  cases m with
  | nil => simp at h
  | cons a m1 =>
    cases m1 with
    | nil => simp at h
    | cons b m2 =>
      cases m2 with
      | nil => simp at h
      | cons c m3 =>
        cases m3 with
        | nil =>
            simp only [List.map_cons, List.map_nil, List.cons.injEq,
              and_true] at h
            obtain ⟨h1, h2, h3⟩ := h
            rw [char_toLower_eq_of_not_lower (by decide) h1,
              char_toLower_eq_of_not_lower (by decide) h2,
              char_toLower_eq_of_not_lower (by decide) h3]
        | cons e m4 => simp at h

theorem http_prefix_decomp {u0 : List Char}
    (h : hasHttpScheme u0 = true) :
    ∃ sch rest, u0 = sch ++ ':' :: '/' :: '/' :: rest ∧
      (lowerChars sch = "http".data ∨ lowerChars sch = "https".data) ∧
      (∀ c ∈ rest, c ∈ u0) := by
  rw [hasHttpScheme, Bool.or_eq_true] at h
  rcases h with h | h
  · obtain ⟨t, ht⟩ := List.isPrefixOf_iff_prefix.1 h
    obtain ⟨l1, l2, rfl, hm1, hm2⟩ :=
      map_eq_append_inv (f := Char.toLower) ht.symm
    have hm1' : l1.map Char.toLower = "http".data ++ [':', '/', '/'] := hm1
    obtain ⟨sch, m3, rfl, hs1, hs2⟩ :=
      map_eq_append_inv (f := Char.toLower) hm1'
    have hm3 : m3 = [':', '/', '/'] := map_toLower_colon_slash hs2
    subst hm3
    refine ⟨sch, l2, by rw [List.append_assoc]; exact rfl, Or.inl hs1, ?_⟩
    intro c hc
    exact List.mem_append_right _ hc
  · obtain ⟨t, ht⟩ := List.isPrefixOf_iff_prefix.1 h
    obtain ⟨l1, l2, rfl, hm1, hm2⟩ :=
      map_eq_append_inv (f := Char.toLower) ht.symm
    have hm1' : l1.map Char.toLower = "https".data ++ [':', '/', '/'] := hm1
    obtain ⟨sch, m3, rfl, hs1, hs2⟩ :=
      map_eq_append_inv (f := Char.toLower) hm1'
    have hm3 : m3 = [':', '/', '/'] := map_toLower_colon_slash hs2
    subst hm3
    refine ⟨sch, l2, by rw [List.append_assoc]; exact rfl, Or.inr hs1, ?_⟩
    intro c hc
    exact List.mem_append_right _ hc

theorem lowerChars_idem (l : List Char) :
    lowerChars (lowerChars l) = lowerChars l := by
  induction l with
  | nil => rfl
  | cons c rest ih =>
      simp only [lowerChars, List.map_cons] at ih ⊢
      rw [char_toLower_idem, ih]

/-- Invariants of a successful `normComponents` run whose scheme-complete
input is `sch://rest` with an `http(s)`-cased `sch` and a clean `rest`. -/
theorem normComponents_inv_core {s : String} {sch rest : List Char}
    {C : NormComponents}
    (hu : (if !(hasHttpScheme s.data) then "https://".data ++ s.data
      else s.data) = sch ++ ':' :: '/' :: '/' :: rest)
    (hlow : lowerChars sch = "http".data ∨ lowerChars sch = "https".data)
    (hA : ∀ c ∈ rest, c.toNat ≤ 0x7f)
    (hB : '[' ∉ rest) (hS : ';' ∉ rest)
    (hC : normComponents s = some C) :
    (C.scheme = "http".data ∨ C.scheme = "https".data) ∧
    NetlocOk C.scheme C.netloc ∧ PathOk C.path ∧ QueryOk C.query := by
  simp only [normComponents] at hC
  rw [hu] at hC
  set CLEAN := rest.filter (fun c => !(isUnsafeUrlChar c)) with hCLEAN
  set NL := CLEAN.takeWhile (fun c => !(c == '/' || c == '?' || c == '#'))
    with hNL
  set R2 := CLEAN.dropWhile (fun c => !(c == '/' || c == '?' || c == '#'))
    with hR2
  set BH := (pyPartition '#' R2).1 with hBH
  set P := (pyPartition '?' BH).1 with hP
  set Q := (pyPartition '?' BH).2.2 with hQ
  have hcleansub : ∀ c ∈ CLEAN, c ∈ rest := by
    intro c hc
    rw [hCLEAN] at hc
    exact List.mem_of_mem_filter hc
  have hcleanunsafe : ∀ c ∈ CLEAN, isUnsafeUrlChar c = false := by
    intro c hc
    rw [hCLEAN] at hc
    have := (List.mem_filter.1 hc).2
    simpa using this
  have hNLsub : ∀ c ∈ NL, c ∈ CLEAN := by
    intro c hc
    rw [hNL] at hc
    exact List.takeWhile_subset _ hc
  have hNLstop : ∀ c ∈ NL, c ≠ '/' ∧ c ≠ '?' ∧ c ≠ '#' := by
    intro c hc
    rw [hNL] at hc
    have hpred := List.mem_takeWhile_imp hc
    have hfalse : (c == '/' || c == '?' || c == '#') = false := by
      revert hpred
      cases h : (c == '/' || c == '?' || c == '#') <;> simp
    simp only [Bool.or_eq_false_iff, beq_eq_false_iff_ne, ne_eq] at hfalse
    exact ⟨hfalse.1.1, hfalse.1.2, hfalse.2⟩
  have hR2sub : ∀ c ∈ R2, c ∈ CLEAN := by
    intro c hc
    rw [hR2] at hc
    exact (List.dropWhile_suffix _).subset hc
  have hBHsub : ∀ c ∈ BH, c ∈ R2 := by
    intro c hc
    rw [hBH] at hc
    exact pyPartition_fst_subset c hc
  have hPsub : ∀ c ∈ P, c ∈ BH := by
    intro c hc
    rw [hP] at hc
    exact pyPartition_fst_subset c hc
  have hnobr : '[' ∉ NL := fun hm => hB (hcleansub _ (hNLsub _ hm))
  have hsplit := pyUrlsplit_shape hlow hnobr hCLEAN hNL hR2 hBH
  rw [pyUrlparse, hsplit] at hC
  by_cases hbr2 : ']' ∈ NL
  · rw [if_pos hbr2] at hC
    simp only [] at hC
    exact absurd hC (by simp)
  · rw [if_neg hbr2] at hC
    simp only [] at hC
    have hnosemi : P.contains ';' = false :=
      contains_eq_false_of_not_mem
        (fun hm => hS (hcleansub _ (hR2sub _ (hBHsub _ (hPsub _ hm)))))
    rw [if_neg (fun hcm => by
      rw [hnosemi] at hcm
      exact Bool.noConfusion hcm.2)] at hC
    simp only [] at hC
    rw [lowerChars_idem] at hC
    -- the host part
    have hHost : HostOk (lowerChars (pyHostnameProp NL)) :=
      hostOk_of_clean (fun c hc => hA c (hcleansub _ (hNLsub _ hc)))
        hNLstop (fun c hc => hcleanunsafe c (hNLsub _ hc)) hnobr hbr2
    have hPshape : P = [] ∨ P.head? = some '/' := by
      rw [hP, hBH]
      exact split_path_shape (by rw [hR2]; exact dropWhile_head_stop CLEAN)
    have hPchars : ∀ c ∈ P, c ∉ (['?', '#', ';', '\t', '\r', '\n'] :
        List Char) := by
      intro c hc hmem
      simp only [List.mem_cons, List.not_mem_nil, or_false] at hmem
      rcases hmem with rfl | rfl | rfl | rfl | rfl | rfl
      · rw [hP] at hc
        exact pyPartition_fst_not_mem '?' BH hc
      · rw [hBH] at hPsub
        exact pyPartition_fst_not_mem '#' R2 (hPsub _ hc)
      · exact hS (hcleansub _ (hR2sub _ (hBHsub _ (hPsub _ hc))))
      · have := hcleanunsafe _ (hR2sub _ (hBHsub _ (hPsub _ hc)))
        revert this
        decide
      · have := hcleanunsafe _ (hR2sub _ (hBHsub _ (hPsub _ hc)))
        revert this
        decide
      · have := hcleanunsafe _ (hR2sub _ (hBHsub _ (hPsub _ hc)))
        revert this
        decide
    rcases hpp : pyPortProp NL with e | port0
    · rw [hpp] at hC
      simp only [] at hC
      exact absurd hC (by simp)
    · rw [hpp] at hC
      simp only [] at hC
      have hnone : ∀ (hmatch : C = ⟨lowerChars sch,
          lowerChars (pyHostnameProp NL), normPath P, normQuery Q⟩),
          (C.scheme = "http".data ∨ C.scheme = "https".data) ∧
          NetlocOk C.scheme C.netloc ∧ PathOk C.path ∧ QueryOk C.query := by
        intro hmatch
        subst hmatch
        refine ⟨hlow, ⟨lowerChars (pyHostnameProp NL), none, by simp,
          hHost, trivial⟩, normPath_PathOk hPshape hPchars,
          normQuery_QueryOk Q⟩
      rcases pyPortProp_ok_inv hpp with rfl | ⟨p, rfl, hple⟩
      · rw [if_neg (by rintro (⟨_, h⟩ | ⟨_, h⟩) <;>
          exact Option.noConfusion h)] at hC
        simp only [] at hC
        exact hnone (Option.some.inj hC).symm
      · by_cases hdflt : (lowerChars sch = "http".data ∧ some p = some 80) ∨
            (lowerChars sch = "https".data ∧ some p = some 443)
        · rw [if_pos hdflt] at hC
          simp only [] at hC
          exact hnone (Option.some.inj hC).symm
        · rw [if_neg hdflt] at hC
          rcases p with _ | pv
          · simp only [] at hC
            exact hnone (Option.some.inj hC).symm
          · simp only [] at hC
            have hCe := (Option.some.inj hC).symm
            subst hCe
            refine ⟨hlow, ⟨lowerChars (pyHostnameProp NL), some (pv + 1),
              rfl, hHost, ?_, ?_, ?_, ?_⟩,
              normPath_PathOk hPshape hPchars, normQuery_QueryOk Q⟩
            · omega
            · exact hple
            · rintro ⟨hsch, hp80⟩
              exact hdflt (Or.inl ⟨hsch, by rw [hp80]⟩)
            · rintro ⟨hsch, hp443⟩
              exact hdflt (Or.inr ⟨hsch, by rw [hp443]⟩)

/-- Invariants of a successful `normComponents` on an ASCII input
without `[` and `;`. -/
theorem normComponents_inv {s : String} {C : NormComponents}
    (hA : ∀ c ∈ s.data, c.toNat ≤ 0x7f)
    (hB : '[' ∉ s.data) (hS : ';' ∉ s.data)
    (hC : normComponents s = some C) :
    (C.scheme = "http".data ∨ C.scheme = "https".data) ∧
    NetlocOk C.scheme C.netloc ∧ PathOk C.path ∧ QueryOk C.query := by
  by_cases hhs : hasHttpScheme s.data = true
  · obtain ⟨sch, rest, hu0, hlow, hsub⟩ := http_prefix_decomp hhs
    refine normComponents_inv_core ?_ hlow (fun c hc => hA c (hsub c hc))
      (fun hm => hB (hsub _ hm)) (fun hm => hS (hsub _ hm)) hC
    rw [hhs]
    simp only [Bool.not_true, Bool.false_eq_true, if_false]
    exact hu0
  · have hf : hasHttpScheme s.data = false := by
      revert hhs
      cases hasHttpScheme s.data <;> simp
    refine normComponents_inv_core ?_
      (Or.inr (show lowerChars "https".data = "https".data by decide))
      hA hB hS hC
    rw [hf]
    simp only [Bool.not_false, if_true]
    exact rfl

/-- C6 (amended): on an ASCII input without `[` and `;`, if
`normalize_url` succeeds and the canonical components have a nonempty
authority or a path not beginning with `//`, then running
`normalize_url` again on the result returns the result unchanged.  (The
unamended claim — idempotence on every input — is refuted by
`normalize_url_not_idempotent`: the `;`-parameter split of `urlparse`
makes a second pass strip path segments again.) -/
theorem normalize_url_idempotent (s v : String) (C : NormComponents)
    (hA : ∀ c ∈ s.data, c.toNat ≤ 0x7f)
    (hB : '[' ∉ s.data) (hS : ';' ∉ s.data)
    (hC : normComponents s = some C)
    (hbr : C.netloc ≠ [] ∨ C.path.take 2 ≠ ['/', '/'])
    (hv : normalize_url s = some v) :
    normalize_url v = some v := by
  obtain ⟨hsch, hnet, hpath, hquery⟩ := normComponents_inv hA hB hS hC
  have hveq : v = String.mk (pyUrlunsplit C.scheme C.netloc C.path C.query) := by
    rw [normalize_url, hC] at hv
    simp only [Option.map_some'] at hv
    exact (Option.some.inj hv).symm
  subst hveq
  rw [normalize_url, normComponents_unsplit hsch hnet hpath hquery hbr]
  exact rfl

/-- Witness for the amended C6 theorem at a concrete input. -/
theorem normalize_url_idempotent_witness :
    normalize_url "http://ex.com:81/a?a=1&b=2" =
      some "http://ex.com:81/a?a=1&b=2" :=
  normalize_url_idempotent "HTTP://Ex.Com:81/a/?b=2&a=1"
    "http://ex.com:81/a?a=1&b=2"
    ⟨"http".data, "ex.com:81".data, "/a".data, "a=1&b=2".data⟩
    (by decide) (by decide) (by decide) (by decide) (by decide) (by decide)
